import Mathlib

/-!
Verification of the `set-genome` crate (SilvanCodes/set-genome).

This file is a shallow embedding of the crate's data model and of the
operations referenced by the claims, together with theorems settling those
claims.

Modelling conventions:
* `u64`/`usize` identifiers become `Nat` wrapped in `Id` (ids are only
  compared for equality/order, never overflowed).
* `f64` connection weights become `ℚ`: every arithmetic operation the
  claims exercise on weights (addition, negation, halving, comparison,
  absolute value) is exact in `f64`-idealised real arithmetic.  Where the
  `f64` special values matter (the `NaN` produced by `0.0/0.0` in
  `compatability_distance`) a dedicated mini-float type `F` with `nan`
  and signed infinities is used.
* `Genes<T>` (a `HashSet` with identity-based equality/hash) becomes a
  `List T` together with the set-operations `sContains` / `sInsert` /
  `sReplace` / `sRemove` / `sRetain` parameterised by the key equality
  `keq` that mirrors the crate's `PartialEq` instances (id for nodes,
  (input, output) for connections).  List order models the (arbitrary)
  iteration order of the hash set; random choices made by iterating
  (`random`, `iterate_with_random_offset`, `choose`) are modelled by
  explicit offset/index parameters ranging over all values the RNG can
  produce.
* RNG draws (weights, coin flips, shuffles) are explicit oracle
  parameters; theorems quantify over all oracle values.
-/

set_option linter.unusedVariables false

namespace SetGenome

/-- `genes/id.rs`: `pub struct Id(pub u64)`. -/
structure Id where
  val : Nat
deriving DecidableEq, Repr

/-- `genes/nodes/activations.rs`: the fixed pool of activation functions. -/
inductive Activation where
  | Linear
  | Sigmoid
  | Tanh
  | Gaussian
  | Step
  | Sine
  | Cosine
  | Inverse
  | Absolute
  | Relu
  | Squared
deriving DecidableEq, Repr

/-- `genes/nodes/mod.rs`: a node gene is an id plus an activation function.
The `id_counter` field only feeds the hash-based `next_id`, which is
modelled by explicit fresh-id parameters, so it is omitted here. -/
structure Node where
  id : Id
  activation : Activation
deriving DecidableEq, Repr

/-- `Node::new`. -/
def Node.new (id : Id) (activation : Activation) : Node := ⟨id, activation⟩

/-- A connection gene: input id, output id and a weight
(`genes/connections.rs` in its scalar-weight form, which is the form used
by `genome.rs` and all mutation operators: `Connection::new(input, weight,
output)` with a public `weight` field). -/
structure Connection where
  input : Id
  output : Id
  weight : ℚ
deriving DecidableEq, Repr

/-- `Connection::new(input, weight_value, output)`. -/
def Connection.new (input : Id) (weight : ℚ) (output : Id) : Connection :=
  ⟨input, output, weight⟩

/-- `impl PartialEq for Node`: equality solely by id. -/
def Node.keq (a b : Node) : Bool := a.id == b.id

/-- `impl PartialEq for Connection`: equality solely by the
`(input, output)` pair; the weight is not part of the identity. -/
def Connection.keq (a b : Connection) : Bool :=
  a.input == b.input && a.output == b.output

/-- `Genes<T>`: the hash-set of genes, modelled as a list whose order
stands for the set's (irrelevant) iteration order. -/
abbrev Genes (T : Type) := List T

/-- `HashSet::contains`: membership by the gene's identity. -/
def sContains {T : Type} (keq : T → T → Bool) (l : Genes T) (x : T) : Bool :=
  l.any fun y => keq y x

/-- `HashSet::insert`: adds `x` unless an identity-equal element is
present; returns the set (the crate asserts on the returned Bool, which
the theorems capture through freshness hypotheses). -/
def sInsert {T : Type} (keq : T → T → Bool) (l : Genes T) (x : T) : Genes T :=
  if sContains keq l x then l else l ++ [x]

/-- `HashSet::replace`: adds `x`, replacing the identity-equal element if
one is present. -/
def sReplace {T : Type} (keq : T → T → Bool) (l : Genes T) (x : T) : Genes T :=
  if sContains keq l x then l.map (fun y => if keq y x then x else y) else l ++ [x]

/-- `HashSet::remove`: removes the identity-equal element, if any. -/
def sRemove {T : Type} (keq : T → T → Bool) (l : Genes T) (x : T) : Genes T :=
  l.eraseP fun y => keq y x

/-- The five gene sets of `genome.rs::Genome`. -/
structure Genome where
  inputs : Genes Node
  hidden : Genes Node
  outputs : Genes Node
  feed_forward : Genes Connection
  recurrent : Genes Connection
deriving DecidableEq, Repr

/-- `Genome::nodes`: all node genes, inputs then hidden then outputs. -/
def Genome.nodes (g : Genome) : Genes Node := g.inputs ++ g.hidden ++ g.outputs

/-- `Genome::connections`: feed-forward then recurrent connections. -/
def Genome.connections (g : Genome) : Genes Connection :=
  g.feed_forward ++ g.recurrent

/-- `Genome::contains`: whether any node gene carries the given id. -/
def Genome.containsId (g : Genome) (i : Id) : Bool :=
  g.nodes.any fun n => n.id == i

/-! ## `Genome::would_form_cycle`

The source performs a visited-set graph walk over the feed-forward
connections only, starting from `end_node` and reporting `true` as soon
as an edge into `start_node` is seen.  The Rust `Vec` stack is modelled
by a list processed from the head; the walk's result is proven
order-independent below.  The walk is written with explicit fuel (the
source's loop terminates because the visited set grows inside a finite
id universe; `wfcFuel` is proven sufficient as part of the claim). -/

/-- All successor ids of `n` via feed-forward connections, in set order. -/
def outsOf (ff : Genes Connection) (n : Id) : List Id :=
  (ff.filter fun c => c.input == n).map fun c => c.output

/-- The loop body of `would_form_cycle`. -/
def wfcAux (ff : Genes Connection) (startId : Id) :
    Nat → List Id → List Id → Bool
  | 0, _, _ => false
  | _ + 1, [], _ => false
  | fuel + 1, node :: rest, visited =>
    if visited.contains node then wfcAux ff startId fuel rest visited
    else if (outsOf ff node).contains startId then true
    else wfcAux ff startId fuel (outsOf ff node ++ rest) (node :: visited)

/-- Fuel sufficient for the walk: one unit per stack pop; pops are bounded
by `1 + visits * |ff|` and visits stay inside `endId :: outputs`. -/
def wfcFuel (ff : Genes Connection) (endId : Id) : Nat :=
  (endId :: ff.map fun c => c.output).length * (ff.length + 1) + 1

/-- `Genome::would_form_cycle(start_node, end_node)`. -/
def Genome.would_form_cycle (g : Genome) (start_node end_node : Node) : Bool :=
  wfcAux g.feed_forward start_node.id (wfcFuel g.feed_forward end_node.id)
    [end_node.id] []

/-- The edge relation of the feed-forward subgraph. -/
def ffEdge (ff : Genes Connection) (x y : Id) : Prop :=
  ∃ c ∈ ff, c.input = x ∧ c.output = y

/-- Acyclicity of the feed-forward subgraph: no node reaches itself by a
path of at least one edge. -/
def Acyclic (ff : Genes Connection) : Prop :=
  ∀ n, ¬ Relation.TransGen (ffEdge ff) n n

theorem mem_outsOf {ff : Genes Connection} {n y : Id} :
    y ∈ outsOf ff n ↔ ffEdge ff n y := by
  constructor
  · intro h
    rcases List.mem_map.mp h with ⟨c, hc, rfl⟩
    rcases List.mem_filter.mp hc with ⟨hmem, hin⟩
    exact ⟨c, hmem, by simpa using hin, rfl⟩
  · rintro ⟨c, hc, hin, rfl⟩
    exact List.mem_map.mpr ⟨c, List.mem_filter.mpr ⟨hc, by simpa using hin⟩, rfl⟩

/-- Soundness of the walk: a `true` answer exhibits a path from `e` to
`startId`, provided every stacked node is `e` or reachable from `e`. -/
theorem wfcAux_sound {ff : Genes Connection} {startId e : Id} :
    ∀ (fuel : Nat) (tv vis : List Id),
      (∀ n ∈ tv, n = e ∨ Relation.TransGen (ffEdge ff) e n) →
      wfcAux ff startId fuel tv vis = true →
      Relation.TransGen (ffEdge ff) e startId := by
  intro fuel
  induction fuel with
  | zero => intro tv vis _ h; simp [wfcAux] at h
  | succ f ih =>
    intro tv vis hpre h
    match tv with
    | [] => simp [wfcAux] at h
    | node :: rest =>
      by_cases hv : vis.contains node = true
      · rw [wfcAux, if_pos hv] at h
        exact ih rest vis (fun n hn => hpre n (List.mem_cons_of_mem _ hn)) h
      · rw [wfcAux, if_neg hv] at h
        by_cases hs : (outsOf ff node).contains startId = true
        · have hedge : ffEdge ff node startId := mem_outsOf.mp (by simpa using hs)
          rcases hpre node (List.mem_cons_self _ _) with rfl | hreach
          · exact Relation.TransGen.single hedge
          · exact Relation.TransGen.tail hreach hedge
        · rw [if_neg hs] at h
          refine ih (outsOf ff node ++ rest) (node :: vis) ?_ h
          intro n hn
          rcases List.mem_append.mp hn with hout | hrest
          · have hedge : ffEdge ff node n := mem_outsOf.mp hout
            rcases hpre node (List.mem_cons_self _ _) with rfl | hreach
            · exact Or.inr (Relation.TransGen.single hedge)
            · exact Or.inr (Relation.TransGen.tail hreach hedge)
          · exact hpre n (List.mem_cons_of_mem _ hrest)

/-- A visited set closed under successors and never hitting `s` admits no
path to `s` from any of its members. -/
theorem no_reach_of_closed {E : Id → Id → Prop} {vis : List Id} {s : Id}
    (hcl : ∀ v ∈ vis, ∀ y, E v y → y ≠ s ∧ y ∈ vis) :
    ∀ n ∈ vis, ¬ Relation.TransGen E n s := by
  intro n hn ht
  have key : ∀ m, Relation.TransGen E n m → m ∈ vis ∧ m ≠ s := by
    intro m hm
    induction hm with
    | single h => exact ⟨(hcl n hn _ h).2, (hcl n hn _ h).1⟩
    | tail hprev hstep ih =>
      exact ⟨(hcl _ ih.1 _ hstep).2, (hcl _ ih.1 _ hstep).1⟩
  exact (key s ht).2 rfl

/-- Marking a genuinely new element strictly shrinks the unvisited part
of the universe. -/
theorem filter_not_contains_cons_lt {A vis : List Id} {n : Id}
    (hA : n ∈ A) (hn : vis.contains n = false) :
    (A.filter fun x => !((n :: vis).contains x)).length + 1 ≤
      (A.filter fun x => !(vis.contains x)).length := by
  induction A with
  | nil => cases hA
  | cons a A' ih =>
    by_cases ha : a = n
    · subst ha
      have h1 : (!((a :: vis).contains a)) = false := by simp
      have h2 : (!(vis.contains a)) = true := by simpa using hn
      rw [List.filter_cons, h1, List.filter_cons, h2]
      have hmono :
          List.Sublist (A'.filter fun x => !((a :: vis).contains x))
            (A'.filter fun x => !(vis.contains x)) := by
        apply List.monotone_filter_right
        intro x hx
        simp only [List.contains_cons, Bool.not_eq_true', Bool.or_eq_false_iff] at hx ⊢
        exact hx.2
      simpa [Nat.succ_le_succ_iff] using hmono.length_le
    · have hA' : n ∈ A' := by
        rcases List.mem_cons.mp hA with h | h
        · exact absurd h.symm ha
        · exact h
      have hsame : ((n :: vis).contains a) = (vis.contains a) := by
        have hba : (a == n) = false := by
          simp only [beq_eq_false_iff_ne]
          exact ha
        simp only [List.contains_cons, hba, Bool.false_or]
      rw [List.filter_cons, List.filter_cons, hsame]
      by_cases hk : (!(vis.contains a)) = true
      · rw [hk]
        simpa [Nat.succ_le_succ_iff] using ih hA'
      · rw [Bool.not_eq_true] at hk
        rw [hk]
        simpa using ih hA'

/-- The id universe the walk can ever stack: the start of the walk plus
every connection output. -/
def wfcUniv (ff : Genes Connection) (e : Id) : List Id :=
  e :: ff.map fun c => c.output

/-- Termination measure of the walk. -/
def wfcMeasure (ff : Genes Connection) (e : Id) (tv vis : List Id) : Nat :=
  tv.length + ((wfcUniv ff e).filter fun x => !(vis.contains x)).length * (ff.length + 1)

/-- Completeness of the walk: with enough fuel, a `false` answer excludes
every path to `startId` from any stacked or visited node. -/
theorem wfcAux_complete {ff : Genes Connection} {s e : Id} :
    ∀ (fuel : Nat) (tv vis : List Id),
      wfcMeasure ff e tv vis ≤ fuel →
      (∀ n ∈ tv, n ∈ wfcUniv ff e) →
      (∀ v ∈ vis, ∀ y, ffEdge ff v y → y ≠ s ∧ (y ∈ vis ∨ y ∈ tv)) →
      wfcAux ff s fuel tv vis = false →
      ∀ n, (n ∈ tv ∨ n ∈ vis) → ¬ Relation.TransGen (ffEdge ff) n s := by
  intro fuel
  induction fuel with
  | zero =>
    intro tv vis hm htv hcl hres n hn
    have htve : tv = [] := by
      have : tv.length = 0 := by
        simp only [wfcMeasure] at hm; omega
      exact List.length_eq_zero.mp this
    subst htve
    have hcl' : ∀ v ∈ vis, ∀ y, ffEdge ff v y → y ≠ s ∧ y ∈ vis := by
      intro v hv y hy
      rcases hcl v hv y hy with ⟨h1, h2 | h2⟩
      · exact ⟨h1, h2⟩
      · cases h2
    rcases hn with hn | hn
    · cases hn
    · exact no_reach_of_closed hcl' n hn
  | succ f ih =>
    intro tv vis hm htv hcl hres n hn
    match tv, hn, htv, hcl, hm, hres with
    | [], hn, htv, hcl, hm, hres =>
      have hcl' : ∀ v ∈ vis, ∀ y, ffEdge ff v y → y ≠ s ∧ y ∈ vis := by
        intro v hv y hy
        rcases hcl v hv y hy with ⟨h1, h2 | h2⟩
        · exact ⟨h1, h2⟩
        · cases h2
      rcases hn with hn | hn
      · cases hn
      · exact no_reach_of_closed hcl' n hn
    | node :: rest, hn, htv, hcl, hm, hres =>
      by_cases hv : vis.contains node = true
      · rw [wfcAux, if_pos hv] at hres
        have hnode_vis : node ∈ vis := by simpa using hv
        have hm' : wfcMeasure ff e rest vis ≤ f := by
          simp only [wfcMeasure, List.length_cons] at hm ⊢; omega
        have hcl' : ∀ v ∈ vis, ∀ y, ffEdge ff v y → y ≠ s ∧ (y ∈ vis ∨ y ∈ rest) := by
          intro v hv' y hy
          rcases hcl v hv' y hy with ⟨h1, h2 | h2⟩
          · exact ⟨h1, Or.inl h2⟩
          · rcases List.mem_cons.mp h2 with rfl | h2
            · exact ⟨h1, Or.inl hnode_vis⟩
            · exact ⟨h1, Or.inr h2⟩
        have hmain := ih rest vis hm' (fun x hx => htv x (List.mem_cons_of_mem _ hx)) hcl' hres
        rcases hn with hn | hn
        · rcases List.mem_cons.mp hn with rfl | hn
          · exact hmain n (Or.inr hnode_vis)
          · exact hmain n (Or.inl hn)
        · exact hmain n (Or.inr hn)
      · rw [wfcAux, if_neg hv] at hres
        by_cases hs : (outsOf ff node).contains s = true
        · rw [if_pos hs] at hres; cases hres
        · rw [if_neg hs] at hres
          have hnode_univ : node ∈ wfcUniv ff e := htv node (List.mem_cons_self _ _)
          have houts_le : (outsOf ff node).length ≤ ff.length := by
            simp only [outsOf, List.length_map]
            exact List.length_filter_le _ _
          have hcount := filter_not_contains_cons_lt hnode_univ (by simpa using hv)
          have hm' : wfcMeasure ff e (outsOf ff node ++ rest) (node :: vis) ≤ f := by
            simp only [wfcMeasure, List.length_append, List.length_cons] at hm ⊢
            set a := ((wfcUniv ff e).filter fun x => !((node :: vis).contains x)).length
            set b := ((wfcUniv ff e).filter fun x => !(vis.contains x)).length
            nlinarith [hcount, houts_le, hm]
          have htv' : ∀ x ∈ outsOf ff node ++ rest, x ∈ wfcUniv ff e := by
            intro x hx
            rcases List.mem_append.mp hx with hx | hx
            · rcases mem_outsOf.mp hx with ⟨c, hc, _, rfl⟩
              exact List.mem_cons_of_mem _ (List.mem_map.mpr ⟨c, hc, rfl⟩)
            · exact htv x (List.mem_cons_of_mem _ hx)
          have hcl' : ∀ v ∈ node :: vis, ∀ y, ffEdge ff v y →
              y ≠ s ∧ (y ∈ node :: vis ∨ y ∈ outsOf ff node ++ rest) := by
            intro v hv' y hy
            rcases List.mem_cons.mp hv' with rfl | hv'
            · have hyout : y ∈ outsOf ff v := mem_outsOf.mpr hy
              constructor
              · intro hys; subst hys
                exact absurd (by simpa using hyout) (by simpa using hs)
              · exact Or.inr (List.mem_append.mpr (Or.inl hyout))
            · rcases hcl v hv' y hy with ⟨h1, h2 | h2⟩
              · exact ⟨h1, Or.inl (List.mem_cons_of_mem _ h2)⟩
              · rcases List.mem_cons.mp h2 with rfl | h2
                · exact ⟨h1, Or.inl (List.mem_cons_self _ _)⟩
                · exact ⟨h1, Or.inr (List.mem_append.mpr (Or.inr h2))⟩
          have hmain := ih (outsOf ff node ++ rest) (node :: vis) hm' htv' hcl' hres
          rcases hn with hn | hn
          · rcases List.mem_cons.mp hn with rfl | hn
            · exact hmain n (Or.inr (List.mem_cons_self _ _))
            · exact hmain n (Or.inl (List.mem_append.mpr (Or.inr hn)))
          · exact hmain n (Or.inr (List.mem_cons_of_mem _ hn))


/-- The walk launched as `would_form_cycle` launches it decides
reachability `e →⁺ s`. -/
theorem wfc_spec (ff : Genes Connection) (s e : Id) :
    wfcAux ff s (wfcFuel ff e) [e] [] = true ↔
      Relation.TransGen (ffEdge ff) e s := by
  constructor
  · intro h
    exact wfcAux_sound _ [e] []
      (fun n hn => Or.inl (List.mem_singleton.mp hn)) h
  · intro hpath
    by_contra hfalse
    rw [Bool.not_eq_true] at hfalse
    have hm : wfcMeasure ff e [e] [] ≤ wfcFuel ff e := by
      simp only [wfcMeasure, wfcFuel, wfcUniv, List.contains_nil, Bool.not_false,
        List.filter_true, List.length_cons, List.length_map, List.length_singleton]
      exact Nat.le_of_eq (Nat.add_comm 1 _)
    have htv : ∀ n ∈ [e], n ∈ wfcUniv ff e := by
      intro n hn
      rcases List.mem_singleton.mp hn with rfl
      exact List.mem_cons_self _ _
    have hcl : ∀ v ∈ ([] : List Id), ∀ y, ffEdge ff v y →
        y ≠ s ∧ (y ∈ ([] : List Id) ∨ y ∈ [e]) :=
      fun v hv => absurd hv (List.not_mem_nil v)
    exact wfcAux_complete _ [e] [] hm htv hcl hfalse e
      (Or.inl (List.mem_cons_self _ _)) hpath

/-- Every nonempty path has a first edge. -/
theorem exists_first_edge {r : Id → Id → Prop} {a b : Id}
    (h : Relation.TransGen r a b) : ∃ y, r a y := by
  induction h with
  | single h => exact ⟨_, h⟩
  | tail _ _ ih => exact ih

/-- Executable acyclicity check: no connection input reaches itself. -/
def acyclicCheck (ff : Genes Connection) : Bool :=
  ff.all fun c => !(wfcAux ff c.input (wfcFuel ff c.input) [c.input] [])

/-- The executable check certifies `Acyclic`. -/
theorem acyclic_of_acyclicCheck {ff : Genes Connection}
    (h : acyclicCheck ff = true) : Acyclic ff := by
  intro n ht
  obtain ⟨y, c, hc, hcin, _⟩ := exists_first_edge ht
  have hcheck := List.all_eq_true.mp h c hc
  rw [Bool.not_eq_true'] at hcheck
  subst hcin
  have htrue := (wfc_spec ff c.input c.input).mpr ht
  rw [hcheck] at htrue
  cases htrue

/-- C3: `would_form_cycle(start, end)` returns true if and only if a
directed path of at least one edge leads from `end` to `start` through
the feed-forward connections alone; the recurrent set never influences
the result. -/
theorem C3_would_form_cycle_iff_path (g : Genome) (s e : Node) :
    (g.would_form_cycle s e = true ↔
      Relation.TransGen (ffEdge g.feed_forward) e.id s.id)
    ∧ (∀ rc : Genes Connection,
        Genome.would_form_cycle { g with recurrent := rc } s e
          = g.would_form_cycle s e) :=
  ⟨wfc_spec g.feed_forward s.id e.id, fun _ => rfl⟩

/-! ## Set-operation lemmas -/

theorem mem_sInsert {T : Type} {keq : T → T → Bool} {l : Genes T} {x y : T}
    (h : y ∈ sInsert keq l x) : y ∈ l ∨ y = x := by
  unfold sInsert at h
  by_cases hc : sContains keq l x = true
  · rw [if_pos hc] at h; exact Or.inl h
  · rw [if_neg hc] at h
    rcases List.mem_append.mp h with h | h
    · exact Or.inl h
    · exact Or.inr (List.mem_singleton.mp h)

theorem mem_sReplace {T : Type} {keq : T → T → Bool} {l : Genes T} {x y : T}
    (h : y ∈ sReplace keq l x) : y ∈ l ∨ y = x := by
  unfold sReplace at h
  by_cases hc : sContains keq l x = true
  · rw [if_pos hc] at h
    rcases List.mem_map.mp h with ⟨z, hz, hzy⟩
    by_cases hk : keq z x = true
    · rw [if_pos hk] at hzy; exact Or.inr hzy.symm
    · rw [if_neg hk] at hzy; exact Or.inl (hzy ▸ hz)
  · rw [if_neg hc] at h
    rcases List.mem_append.mp h with h | h
    · exact Or.inl h
    · exact Or.inr (List.mem_singleton.mp h)

theorem mem_sRemove {T : Type} {keq : T → T → Bool} {l : Genes T} {x y : T}
    (h : y ∈ sRemove keq l x) : y ∈ l :=
  (List.eraseP_sublist l).subset h

theorem sInsert_eq_append {T : Type} {keq : T → T → Bool} {l : Genes T} {x : T}
    (h : sContains keq l x = false) : sInsert keq l x = l ++ [x] := by
  unfold sInsert
  rw [h]
  simp

theorem length_sReplace_of_contains {T : Type} {keq : T → T → Bool}
    {l : Genes T} {x : T} (h : sContains keq l x = true) :
    (sReplace keq l x).length = l.length := by
  unfold sReplace
  rw [if_pos h, List.length_map]

/-! ## Mutation operators

Each operator is embedded from its file under `src/src/mutations/`.
Random draws are explicit parameters: `o` for the offset of an
`iterate_with_random_offset`-style scan (the source computes
`floor(rng_f64 * window)`, so the offset stays below the scan window and
a rotation models `cycle().skip(o)`), `cho`/`k` for `random`/`choose`
index draws, `w`/`pert*` for sampled weights and `m` for hash-minted
fresh ids. -/

/-- `mutations/error.rs` (plus the `CouldNotDuplicateNode` variant used
by `duplicate_node.rs`). -/
inductive MutationError where
  | CouldNotAddFeedForwardConnection
  | CouldNotAddRecurrentConnection
  | CouldNotRemoveNode
  | CouldNotRemoveFeedForwardConnection
  | CouldNotRemoveRecurrentConnection
  | CouldNotDuplicateNode
deriving DecidableEq, Repr

/-- `Genes::random` / `IteratorRandom::choose`: a uniformly random
element, `none` iff the set is empty; the RNG draw is the index `k`. -/
def randomPick {T : Type} (k : Nat) (l : Genes T) : Option T :=
  l.get? (k % l.length)

/-- `Genome::has_alternative_input`: some connection other than the one
from `exclude` points to `node`. -/
def Genome.has_alternative_input (g : Genome) (node exclude : Id) : Bool :=
  (g.connections.filter fun c => c.output == node).any fun c =>
    !(c.input == exclude)

/-- `Genome::has_alternative_output`: some connection other than the one
to `exclude` leaves `node`. -/
def Genome.has_alternative_output (g : Genome) (node exclude : Id) : Bool :=
  (g.connections.filter fun c => c.input == node).any fun c =>
    !(c.output == exclude)

/-- `mutations/add_connection.rs`: scan start candidates
(inputs ++ hidden, rotated by the random offset), for each find the first
end candidate (hidden ++ outputs) that is distinct, unconnected and
cycle-safe; insert a feed-forward connection with sampled weight `w`
(`Connection::weight_perturbation(0.0, 1.0, rng)` is commented out of
`connections.rs`, so the sample is an oracle parameter). -/
def Mutations.add_connection (o : Nat) (w : ℚ) (g : Genome) :
    Except MutationError Genome :=
  match ((g.inputs ++ g.hidden).rotate o).findSome? (fun start_node =>
      ((g.hidden ++ g.outputs).find? fun end_node =>
          !(end_node.id == start_node.id) &&
          !(sContains Connection.keq g.feed_forward
              (Connection.new start_node.id 0 end_node.id)) &&
          !(g.would_form_cycle start_node end_node)).map
        fun end_node => (start_node, end_node)) with
  | some (s, e) =>
    .ok { g with
            feed_forward := sInsert Connection.keq g.feed_forward
              (Connection.new s.id w e.id) }
  | none => .error .CouldNotAddFeedForwardConnection

/-- `mutations/add_recurrent_connection.rs`: like `add_connection` but
over the recurrent set, without the cycle check, with start candidates
inputs ++ hidden ++ outputs — and, exactly as in the source, with the
scan window still sized `inputs.len() + hidden.len()`, so the offset
obeys `o < inputs.len() + hidden.len()` and only that many start
candidates are ever examined. -/
def Mutations.add_recurrent_connection (o : Nat) (w : ℚ) (g : Genome) :
    Except MutationError Genome :=
  match (((g.inputs ++ g.hidden ++ g.outputs).rotate o).take
      (g.inputs.length + g.hidden.length)).findSome? (fun start_node =>
      ((g.hidden ++ g.outputs).find? fun end_node =>
          !(end_node.id == start_node.id) &&
          !(sContains Connection.keq g.recurrent
              (Connection.new start_node.id 0 end_node.id))).map
        fun end_node => (start_node, end_node)) with
  | some (s, e) =>
    .ok { g with
            recurrent := sInsert Connection.keq g.recurrent
              (Connection.new s.id w e.id) }
  | none => .error .CouldNotAddRecurrentConnection

/-- `mutations/add_node.rs`: split the randomly picked feed-forward
connection `c`: insert `c.input → m` with weight 1, insert
`m → c.output` with the split connection's weight, insert the new hidden
node, and zero the split connection's weight via `replace`.  The hash
minted node id is the parameter `m`.  The source unwraps on an empty
`feed_forward`; that panic branch is modelled as the unchanged genome. -/
def Mutations.add_node (cho : Nat) (act : Activation) (m : Id) (g : Genome) :
    Genome :=
  match randomPick cho g.feed_forward with
  | none => g
  | some c =>
    { g with
      feed_forward :=
        sReplace Connection.keq
          (sInsert Connection.keq
            (sInsert Connection.keq g.feed_forward
              (Connection.new c.input 1 m))
            (Connection.new m c.weight c.output))
          (Connection.new c.input 0 c.output)
      hidden := sInsert Node.keq g.hidden (Node.new m act) }

/-- `mutations/change_activation.rs`: replace a random hidden node's
activation by a random pick from the pool excluding the current one;
if that filtered pool is empty the activation is kept. -/
def Mutations.change_activation (pool : List Activation) (cho k : Nat)
    (g : Genome) : Genome :=
  match randomPick cho g.hidden with
  | none => g
  | some node =>
    { g with
        hidden := sReplace Node.keq g.hidden
          (Node.new node.id
            ((randomPick k (pool.filter fun a => !(a == node.activation))).getD
              node.activation)) }

/-- `rng.rs::GenomeRng::weight_perturbation(weight)`: add the sampled
perturbation `p`, negating and halving it while the result would leave
`[-cap, cap]`.  Written with fuel; `none` models non-termination of the
source loop (never reached from in-range weights with positive cap). -/
def weight_perturbation (cap w : ℚ) : Nat → ℚ → Option ℚ
  | 0, p => if w + p > cap ∨ w + p < -cap then none else some (w + p)
  | f + 1, p =>
    if w + p > cap ∨ w + p < -cap then weight_perturbation cap w f (-p / 2)
    else some (w + p)

/-- The per-connection update of `mutations/change_weights.rs`: add the
sampled perturbation, negating it once if the result would leave
`[-weight_cap, weight_cap]`. -/
def perturbWeight (weight_cap p w : ℚ) : ℚ :=
  if w + p > weight_cap ∨ w + p < -weight_cap then w + -p else w + p

/-- `mutations/change_weights.rs`: drain each connection set in random
order (the permutation oracles `shufFF`/`shufRec`), perturb the first
`ceil(percent_perturbed * len)` drained connections and rebuild the set.
The sampled perturbations (`rng.weight_perturbation()`, whose
zero-argument form is not defined under `src`) are the oracles
`pertFF`/`pertRec`; per the spec they are Gaussian samples reflected
into range by `weight_perturbation` at weight 0, which claim C5
captures through its validity hypothesis. -/
def Mutations.change_weights (percent_perturbed weight_cap : ℚ)
    (shufFF shufRec : Genes Connection) (pertFF pertRec : Nat → ℚ)
    (g : Genome) : Genome :=
  { g with
    feed_forward := shufFF.enum.map fun p =>
      if p.1 < (⌈percent_perturbed * (g.feed_forward.length : ℚ)⌉).toNat then
        { p.2 with weight := perturbWeight weight_cap (pertFF p.1) p.2.weight }
      else p.2,
    recurrent := shufRec.enum.map fun p =>
      if p.1 < (⌈percent_perturbed * (g.recurrent.length : ℚ)⌉).toNat then
        { p.2 with weight := perturbWeight weight_cap (pertRec p.1) p.2.weight }
      else p.2 }

/-- The removability test of `mutations/remove_node.rs`: every input
neighbour keeps an alternative output and every output neighbour keeps
an alternative input. -/
def removableNode (g : Genome) (r : Node) : Bool :=
  (g.connections.all fun c =>
    if c.output == r.id then g.has_alternative_output c.input r.id else true) &&
  (g.connections.all fun c =>
    if c.input == r.id then g.has_alternative_input c.output r.id else true)

/-- `mutations/remove_node.rs`: find a removable hidden node in a
randomly rotated scan, then delete it and every feed-forward and
recurrent connection touching it. -/
def Mutations.remove_node (o : Nat) (g : Genome) :
    Except MutationError Genome :=
  match (g.hidden.rotate o).find? (fun r => removableNode g r) with
  | some r =>
    .ok { g with
      feed_forward := g.feed_forward.filter fun c =>
        !(c.input == r.id) && !(c.output == r.id),
      recurrent := g.recurrent.filter fun c =>
        !(c.input == r.id) && !(c.output == r.id),
      hidden := sRemove Node.keq g.hidden r }
  | none => .error .CouldNotRemoveNode

/-- The removability test of `mutations/remove_connection.rs`. -/
def removableConnection (g : Genome) (c : Connection) : Bool :=
  g.has_alternative_input c.output c.input &&
  g.has_alternative_output c.input c.output

/-- `mutations/remove_connection.rs`. -/
def Mutations.remove_connection (o : Nat) (g : Genome) :
    Except MutationError Genome :=
  match (g.feed_forward.rotate o).find? (fun c => removableConnection g c) with
  | some c =>
    .ok { g with feed_forward := sRemove Connection.keq g.feed_forward c }
  | none => .error .CouldNotRemoveFeedForwardConnection

/-- `mutations/remove_recurrent_connection.rs`: remove the recurrent
connection at a random offset, if any. -/
def Mutations.remove_recurrent_connection (o : Nat) (g : Genome) :
    Except MutationError Genome :=
  match (g.recurrent.rotate o).head? with
  | some c =>
    .ok { g with recurrent := sRemove Connection.keq g.recurrent c }
  | none => .error .CouldNotRemoveRecurrentConnection

/-- `mutations/duplicate_node.rs`: duplicate a random hidden node onto a
fresh id `m` (the source re-mints ids until `!genome.contains(id)`),
halving outgoing weights on both copies; a recurrent self-loop is
duplicated as a self-loop on the copy. -/
def Mutations.duplicate_node (cho : Nat) (m : Id) (g : Genome) :
    Except MutationError Genome :=
  match randomPick cho g.hidden with
  | none => .error .CouldNotDuplicateNode
  | some d =>
    let outFF := (g.feed_forward.filter fun c => c.input == d.id).map
      fun c => { c with weight := c.weight / 2 }
    let inFF := g.feed_forward.filter fun c => c.output == d.id
    let newFF := outFF.map (fun c => { c with input := m })
      ++ inFF.map (fun c => { c with output := m })
    let ff2 := newFF.foldl (sInsert Connection.keq)
      (outFF.foldl (sReplace Connection.keq) g.feed_forward)
    let outRec := (g.recurrent.filter fun c =>
      c.input == d.id && !(c.output == d.id)).map
      fun c => { c with weight := c.weight / 2 }
    let inRec := g.recurrent.filter fun c =>
      c.output == d.id && !(c.input == d.id)
    let newRec := outRec.map (fun c => { c with input := m })
      ++ inRec.map (fun c => { c with output := m })
    let r2 := newRec.foldl (sInsert Connection.keq)
      (outRec.foldl (sReplace Connection.keq) g.recurrent)
    let r3 := match r2.find? (fun c => c.input == d.id && c.output == d.id) with
      | some sl => sInsert Connection.keq r2 { sl with input := m, output := m }
      | none => r2
    .ok { g with
      feed_forward := ff2,
      recurrent := r3,
      hidden := sInsert Node.keq (sReplace Node.keq g.hidden d)
        (Node.new m d.activation) }

/-! ## The mutation operator sum type (claim C1) -/

/-- One application of a single mutation operator, with all of its random
draws as payload. -/
inductive Mut where
  | addConnection (o : Nat) (w : ℚ)
  | addNode (cho : Nat) (act : Activation) (m : Id)
  | addRecurrentConnection (o : Nat) (w : ℚ)
  | changeActivation (pool : List Activation) (cho k : Nat)
  | changeWeights (pp cap : ℚ) (shufFF shufRec : Genes Connection)
      (pertFF pertRec : Nat → ℚ)
  | duplicateNode (cho : Nat) (m : Id)
  | removeConnection (o : Nat)
  | removeNode (o : Nat)
  | removeRecurrentConnection (o : Nat)

/-- The genome after the operator: fallible operators that report a
`MutationError` leave the genome unchanged. -/
def applyMut (mu : Mut) (g : Genome) : Genome :=
  match mu with
  | .addConnection o w => ((Mutations.add_connection o w g).toOption).getD g
  | .addNode cho act m => Mutations.add_node cho act m g
  | .addRecurrentConnection o w =>
    ((Mutations.add_recurrent_connection o w g).toOption).getD g
  | .changeActivation pool cho k => Mutations.change_activation pool cho k g
  | .changeWeights pp cap sf sr pf pr =>
    Mutations.change_weights pp cap sf sr pf pr g
  | .duplicateNode cho m => ((Mutations.duplicate_node cho m g).toOption).getD g
  | .removeConnection o => ((Mutations.remove_connection o g).toOption).getD g
  | .removeNode o => ((Mutations.remove_node o g).toOption).getD g
  | .removeRecurrentConnection o =>
    ((Mutations.remove_recurrent_connection o g).toOption).getD g

/-- The id `m` is fresh for `g`: it names no node gene and touches no
connection gene (the identity model: hash-minted ids are unique, and
`duplicate_node` re-mints through `Genome::contains`). -/
def FreshId (m : Id) (g : Genome) : Prop :=
  (∀ n ∈ g.nodes, n.id ≠ m) ∧
  (∀ c ∈ g.connections, c.input ≠ m ∧ c.output ≠ m)

instance (m : Id) (g : Genome) : Decidable (FreshId m g) := by
  unfold FreshId; infer_instance

/-- The payload draws of an operator are ones the source RNG and id
generator could produce for `g`: drain orders of `change_weights` are
permutations of the sets they drain, and minted node ids are fresh. -/
def MutValid (g : Genome) : Mut → Prop
  | .addNode _ _ m => FreshId m g
  | .duplicateNode _ m => FreshId m g
  | .changeWeights _ _ sf sr _ _ =>
    List.Perm sf g.feed_forward ∧ List.Perm sr g.recurrent
  | _ => True

/-! ## Acyclicity preservation lemmas -/

theorem acyclic_of_le {E' E : Id → Id → Prop}
    (hle : ∀ x y, E' x y → E x y) (h : ∀ n, ¬ Relation.TransGen E n n) :
    ∀ n, ¬ Relation.TransGen E' n n :=
  fun n ht => h n (Relation.TransGen.mono hle ht)

/-- A path may take the first edge immediately or after a shorter path. -/
theorem transGen_head_cases {r : Id → Id → Prop} {a b : Id}
    (h : Relation.TransGen r a b) :
    r a b ∨ ∃ c, r a c ∧ Relation.TransGen r c b := by
  induction h with
  | single h1 => exact Or.inl h1
  | tail hprev hstep ih =>
    rcases ih with h1 | ⟨c, h1, h2⟩
    · exact Or.inr ⟨_, h1, Relation.TransGen.single hstep⟩
    · exact Or.inr ⟨c, h1, h2.tail hstep⟩

/-- Decomposing a path of the graph extended by one edge `s → e`. -/
theorem transGen_insert_decompose {R : Id → Id → Prop} {s e a b : Id}
    (h : Relation.TransGen (fun x y => R x y ∨ (x = s ∧ y = e)) a b) :
    Relation.TransGen R a b ∨
      (Relation.ReflTransGen R a s ∧ Relation.ReflTransGen R e b) := by
  induction h with
  | single h1 =>
    rcases h1 with h1 | ⟨rfl, rfl⟩
    · exact Or.inl (Relation.TransGen.single h1)
    · exact Or.inr ⟨Relation.ReflTransGen.refl, Relation.ReflTransGen.refl⟩
  | tail hprev hstep ih =>
    rcases hstep with h1 | ⟨rfl, rfl⟩
    · rcases ih with ih | ⟨ih1, ih2⟩
      · exact Or.inl (ih.tail h1)
      · exact Or.inr ⟨ih1, ih2.tail h1⟩
    · rcases ih with ih | ⟨ih1, _⟩
      · exact Or.inr ⟨ih.to_reflTransGen, Relation.ReflTransGen.refl⟩
      · exact Or.inr ⟨ih1, Relation.ReflTransGen.refl⟩

/-- `add_connection`: inserting a cycle-safe edge `s → e` (no path from
`e` back to `s`, `s ≠ e`) keeps the graph acyclic. -/
theorem acyclic_insert {R : Id → Id → Prop} {s e : Id}
    (hne : s ≠ e) (hnp : ¬ Relation.TransGen R e s)
    (hacy : ∀ n, ¬ Relation.TransGen R n n) :
    ∀ n, ¬ Relation.TransGen (fun x y => R x y ∨ (x = s ∧ y = e)) n n := by
  intro n ht
  rcases transGen_insert_decompose ht with h | ⟨h1, h2⟩
  · exact hacy n h
  · rcases Relation.reflTransGen_iff_eq_or_transGen.mp (h2.trans h1) with h3 | h3
    · exact hne h3
    · exact hnp h3

/-- `add_node`: re-routing an existing path `i →⁺ o` through a fresh node
`m` (edges `i → m` and `m → o`) keeps the graph acyclic. -/
theorem acyclic_split {R : Id → Id → Prop} {i o m : Id}
    (hR : Relation.TransGen R i o)
    (hfresh : ∀ x y, R x y → x ≠ m ∧ y ≠ m)
    (hacy : ∀ n, ¬ Relation.TransGen R n n) :
    ∀ n, ¬ Relation.TransGen
      (fun x y => R x y ∨ (x = i ∧ y = m) ∨ (x = m ∧ y = o)) n n := by
  have him : i ≠ m := by
    obtain ⟨y, hy⟩ := exists_first_edge hR
    exact (hfresh _ _ hy).1
  have hom : o ≠ m := by
    cases hR with
    | single h1 => exact (hfresh _ _ h1).2
    | tail _ hstep => exact (hfresh _ _ hstep).2
  have main : ∀ a b, Relation.TransGen
      (fun x y => R x y ∨ (x = i ∧ y = m) ∨ (x = m ∧ y = o)) a b → a ≠ m →
      ((b ≠ m ∧ Relation.TransGen R a b) ∨
        (b = m ∧ Relation.ReflTransGen R a i)) := by
    intro a b h
    induction h with
    | single h1 =>
      intro ham
      rcases h1 with h1 | ⟨h1, h2⟩ | ⟨h1, h2⟩
      · exact Or.inl ⟨(hfresh _ _ h1).2, Relation.TransGen.single h1⟩
      · subst h1
        exact Or.inr ⟨h2, Relation.ReflTransGen.refl⟩
      · exact absurd h1 ham
    | tail hprev hstep ih =>
      intro ham
      rcases ih ham with ⟨hbm, htg⟩ | ⟨hbm, hrt⟩
      · rcases hstep with h1 | ⟨h1, h2⟩ | ⟨h1, h2⟩
        · exact Or.inl ⟨(hfresh _ _ h1).2, htg.tail h1⟩
        · subst h1
          exact Or.inr ⟨h2, htg.to_reflTransGen⟩
        · exact absurd h1 hbm
      · rcases hstep with h1 | ⟨h1, h2⟩ | ⟨h1, h2⟩
        · exact absurd hbm (hfresh _ _ h1).1
        · exact Or.inr ⟨h2, hrt⟩
        · subst h2
          exact Or.inl ⟨hom, Relation.TransGen.trans_right hrt hR⟩
  intro n ht
  by_cases hnm : n = m
  · subst hnm
    rcases transGen_head_cases ht with h1 | ⟨y, h1, h2⟩
    · rcases h1 with h1 | ⟨h1, _⟩ | ⟨_, h1⟩
      · exact (hfresh _ _ h1).1 rfl
      · exact him h1.symm
      · exact hom h1.symm
    · have hyo : y = o := by
        rcases h1 with h1 | ⟨h1, _⟩ | ⟨_, h1⟩
        · exact absurd rfl (hfresh _ _ h1).1
        · exact absurd h1.symm him
        · exact h1
      subst hyo
      rcases main y n h2 hom with ⟨h3, _⟩ | ⟨_, hrt⟩
      · exact h3 rfl
      · exact hacy y (Relation.TransGen.trans_right hrt hR)
  · rcases main n n ht hnm with ⟨_, htg⟩ | ⟨h3, _⟩
    · exact hacy n htg
    · exact hnm h3

/-- `duplicate_node`: duplicating node `d`'s incoming and outgoing edges
onto a fresh node `m` keeps the graph acyclic (collapse `m` onto `d`). -/
theorem acyclic_dup {R : Id → Id → Prop} {d m : Id}
    (hfresh : ∀ x y, R x y → x ≠ m ∧ y ≠ m)
    (hacy : ∀ n, ¬ Relation.TransGen R n n) :
    ∀ n, ¬ Relation.TransGen
      (fun x y => R x y ∨ (x = m ∧ R d y) ∨ (y = m ∧ R x d)) n n := by
  intro n ht
  refine hacy _ (Relation.TransGen.lift (fun x => if x = m then d else x) ?_ ht)
  intro a b hab
  rcases hab with h1 | ⟨rfl, h1⟩ | ⟨rfl, h1⟩
  · simpa [if_neg (hfresh _ _ h1).1, if_neg (hfresh _ _ h1).2] using h1
  · simpa [if_neg (hfresh _ _ h1).2] using h1
  · simpa [if_neg (hfresh _ _ h1).1] using h1

/-! ## Shape lemmas for the operators -/

theorem mem_foldl_sInsert {T : Type} {keq : T → T → Bool} :
    ∀ {news : List T} {l : Genes T} {x : T},
      x ∈ news.foldl (sInsert keq) l → x ∈ l ∨ x ∈ news := by
  intro news
  induction news with
  | nil => exact fun h => Or.inl h
  | cons a news ih =>
    intro l x h
    rcases ih h with h | h
    · rcases mem_sInsert h with h | rfl
      · exact Or.inl h
      · exact Or.inr (List.mem_cons_self _ _)
    · exact Or.inr (List.mem_cons_of_mem _ h)

theorem mem_foldl_sReplace {T : Type} {keq : T → T → Bool} :
    ∀ {news : List T} {l : Genes T} {x : T},
      x ∈ news.foldl (sReplace keq) l → x ∈ l ∨ x ∈ news := by
  intro news
  induction news with
  | nil => exact fun h => Or.inl h
  | cons a news ih =>
    intro l x h
    rcases ih h with h | h
    · rcases mem_sReplace h with h | rfl
      · exact Or.inl h
      · exact Or.inr (List.mem_cons_self _ _)
    · exact Or.inr (List.mem_cons_of_mem _ h)

theorem snd_mem_of_mem_enumFrom {α : Type} :
    ∀ {l : List α} {n : Nat} {p : Nat × α}, p ∈ l.enumFrom n → p.2 ∈ l := by
  intro l
  induction l with
  | nil => intro n p h; cases h
  | cons a l ih =>
    intro n p h
    rcases List.mem_cons.mp h with rfl | h
    · exact List.mem_cons_self _ _
    · exact List.mem_cons_of_mem _ (ih h)

theorem snd_mem_of_mem_enum {α : Type} {l : List α} {p : Nat × α}
    (h : p ∈ l.enum) : p.2 ∈ l :=
  snd_mem_of_mem_enumFrom h

/-- `add_connection` either reports failure (genome unchanged) or inserts
the found distinct, unconnected, cycle-safe pair. -/
theorem add_connection_ff_cases (o : Nat) (w : ℚ) (g : Genome) :
    (applyMut (.addConnection o w) g) = g ∨
    ∃ s e : Node,
      (e.id == s.id) = false ∧
      g.would_form_cycle s e = false ∧
      (applyMut (.addConnection o w) g).feed_forward
        = sInsert Connection.keq g.feed_forward (Connection.new s.id w e.id) := by
  simp only [applyMut]
  unfold Mutations.add_connection
  split
  next s e heq =>
    obtain ⟨start, hsm, hmap⟩ := List.exists_of_findSome?_eq_some heq
    rcases Option.map_eq_some'.mp hmap with ⟨e', hfind, hpair⟩
    cases hpair
    have hp := List.find?_some hfind
    simp only [Bool.and_eq_true, Bool.not_eq_true'] at hp
    exact Or.inr ⟨s, e, hp.1.1, hp.2, by simp [Except.toOption]⟩
  next heq => exact Or.inl (by simp [Except.toOption])

/-- `add_recurrent_connection` never changes the feed-forward set. -/
theorem add_recurrent_ff (o : Nat) (w : ℚ) (g : Genome) :
    (applyMut (.addRecurrentConnection o w) g).feed_forward
      = g.feed_forward := by
  simp only [applyMut]
  unfold Mutations.add_recurrent_connection
  split
  · simp [Except.toOption]
  · simp [Except.toOption]

/-- `change_activation` never changes the feed-forward set. -/
theorem change_activation_ff (pool : List Activation) (cho k : Nat)
    (g : Genome) :
    (applyMut (.changeActivation pool cho k) g).feed_forward
      = g.feed_forward := by
  simp only [applyMut]
  unfold Mutations.change_activation
  split
  · rfl
  · rfl

/-- `remove_recurrent_connection` never changes the feed-forward set. -/
theorem remove_recurrent_ff (o : Nat) (g : Genome) :
    (applyMut (.removeRecurrentConnection o) g).feed_forward
      = g.feed_forward := by
  simp only [applyMut]
  unfold Mutations.remove_recurrent_connection
  split
  · simp [Except.toOption]
  · simp [Except.toOption]

/-- `add_node` either leaves the genome unchanged (empty set: source
panic branch) or splits the picked connection. -/
theorem add_node_cases (cho : Nat) (act : Activation) (m : Id) (g : Genome) :
    Mutations.add_node cho act m g = g ∨
    ∃ c, randomPick cho g.feed_forward = some c ∧
      Mutations.add_node cho act m g = { g with
        feed_forward :=
          sReplace Connection.keq
            (sInsert Connection.keq
              (sInsert Connection.keq g.feed_forward
                (Connection.new c.input 1 m))
              (Connection.new m c.weight c.output))
            (Connection.new c.input 0 c.output)
        hidden := sInsert Node.keq g.hidden (Node.new m act) } := by
  unfold Mutations.add_node
  split
  next heq => exact Or.inl rfl
  next c heq => exact Or.inr ⟨c, heq, rfl⟩

/-- `remove_connection` either fails (genome unchanged) or removes one
feed-forward connection. -/
theorem remove_connection_cases (o : Nat) (g : Genome) :
    (applyMut (.removeConnection o) g) = g ∨
    ∃ c, (applyMut (.removeConnection o) g).feed_forward
        = sRemove Connection.keq g.feed_forward c := by
  simp only [applyMut]
  unfold Mutations.remove_connection
  split
  next c heq => exact Or.inr ⟨c, by simp [Except.toOption]⟩
  next heq => exact Or.inl (by simp [Except.toOption])

/-- `remove_node` either fails (genome unchanged) or deletes the found
node and its incident connections. -/
theorem remove_node_cases (o : Nat) (g : Genome) :
    (applyMut (.removeNode o) g) = g ∨
    ∃ r, ((g.hidden.rotate o).find? fun x => removableNode g x) = some r ∧
      (applyMut (.removeNode o) g) = { g with
        feed_forward := g.feed_forward.filter fun c =>
          !(c.input == r.id) && !(c.output == r.id)
        recurrent := g.recurrent.filter fun c =>
          !(c.input == r.id) && !(c.output == r.id)
        hidden := sRemove Node.keq g.hidden r } := by
  simp only [applyMut]
  unfold Mutations.remove_node
  split
  next r heq => exact Or.inr ⟨r, heq, by simp [Except.toOption]⟩
  next heq => exact Or.inl (by simp [Except.toOption])

/-- `duplicate_node` either fails (no hidden node) or duplicates the
picked node onto the fresh id. -/
theorem duplicate_node_ff_cases (cho : Nat) (m : Id) (g : Genome) :
    (applyMut (.duplicateNode cho m) g) = g ∨
    ∃ d, randomPick cho g.hidden = some d ∧
      (applyMut (.duplicateNode cho m) g).feed_forward =
        (((g.feed_forward.filter fun (c : Connection) => c.input == d.id).map
            (fun (c : Connection) => { c with weight := c.weight / 2 })).map
              (fun (c : Connection) => { c with input := m })
          ++ (g.feed_forward.filter fun (c : Connection) => c.output == d.id).map
              (fun (c : Connection) => { c with output := m })).foldl
          (sInsert Connection.keq)
          (((g.feed_forward.filter fun (c : Connection) => c.input == d.id).map
            (fun (c : Connection) => { c with weight := c.weight / 2 })).foldl
              (sReplace Connection.keq) g.feed_forward) := by
  cases hpick : randomPick cho g.hidden with
  | none =>
    refine Or.inl ?_
    simp only [applyMut]
    unfold Mutations.duplicate_node
    rw [hpick]
    simp [Except.toOption]
  | some d =>
    refine Or.inr ⟨d, rfl, ?_⟩
    simp only [applyMut]
    unfold Mutations.duplicate_node
    rw [hpick]
    simp only [Except.toOption, Option.getD_some]
/-- C1: feed-forward acyclicity is an invariant of mutation: for every
genome with an acyclic `feed_forward` set, applying any single mutation
operator (with any payload the RNG/id-generator could produce, captured
by `MutValid`: fresh minted ids and genuine drain permutations) leaves
the `feed_forward` set acyclic.  Recurrent connections are exempt: the
acyclicity predicate constrains `feed_forward` only, and
`add_recurrent_connection` inserts without any cycle check. -/
theorem C1_acyclicity_mutation_invariant (g : Genome) (mu : Mut)
    (hv : MutValid g mu) (ha : Acyclic g.feed_forward) :
    Acyclic (applyMut mu g).feed_forward := by
  cases mu with
  | addConnection o w =>
    rcases add_connection_ff_cases o w g with h | ⟨s, e, hne, hwfc, h⟩
    · rw [h]; exact ha
    · rw [h]
      have hne' : s.id ≠ e.id := fun hh => by simp [hh] at hne
      have hnp : ¬ Relation.TransGen (ffEdge g.feed_forward) e.id s.id := by
        intro hTG
        have htrue := (wfc_spec g.feed_forward s.id e.id).mpr hTG
        have hwfc' : wfcAux g.feed_forward s.id
            (wfcFuel g.feed_forward e.id) [e.id] [] = false := hwfc
        rw [hwfc'] at htrue
        cases htrue
      intro n ht
      refine acyclic_insert hne' hnp ha n (Relation.TransGen.mono ?_ ht)
      rintro x y ⟨c, hc, rfl, rfl⟩
      rcases mem_sInsert hc with hc | rfl
      · exact Or.inl ⟨c, hc, rfl, rfl⟩
      · exact Or.inr ⟨rfl, rfl⟩
  | addNode cho act m =>
    rcases add_node_cases cho act m g with h | ⟨c, hpick, h⟩
    · simp only [applyMut]
      rw [h]; exact ha
    · simp only [applyMut]
      rw [h]
      have hfr : FreshId m g := hv
      have hcmem : c ∈ g.feed_forward := by
        unfold randomPick at hpick
        exact List.get?_mem hpick
      have hfresh : ∀ x y, ffEdge g.feed_forward x y → x ≠ m ∧ y ≠ m := by
        rintro x y ⟨c', hc', rfl, rfl⟩
        exact hfr.2 c' (List.mem_append.mpr (Or.inl hc'))
      have hR : Relation.TransGen (ffEdge g.feed_forward) c.input c.output :=
        Relation.TransGen.single ⟨c, hcmem, rfl, rfl⟩
      intro n ht
      refine acyclic_split hR hfresh ha n (Relation.TransGen.mono ?_ ht)
      rintro x y ⟨c', hc', rfl, rfl⟩
      rcases mem_sReplace hc' with hc' | rfl
      · rcases mem_sInsert hc' with hc' | rfl
        · rcases mem_sInsert hc' with hc' | rfl
          · exact Or.inl ⟨c', hc', rfl, rfl⟩
          · exact Or.inr (Or.inl ⟨rfl, rfl⟩)
        · exact Or.inr (Or.inr ⟨rfl, rfl⟩)
      · exact Or.inl ⟨c, hcmem, rfl, rfl⟩
  | addRecurrentConnection o w =>
    rw [add_recurrent_ff o w g]; exact ha
  | changeActivation pool cho k =>
    rw [change_activation_ff pool cho k g]; exact ha
  | changeWeights pp cap sf sr pf pr =>
    intro n ht
    refine ha n (Relation.TransGen.mono ?_ ht)
    rintro x y ⟨c, hc, rfl, rfl⟩
    simp only [applyMut, Mutations.change_weights] at hc
    rcases List.mem_map.mp hc with ⟨p, hp, rfl⟩
    have hmem' : p.2 ∈ g.feed_forward := (hv.1.mem_iff).mp (snd_mem_of_mem_enum hp)
    split
    · exact ⟨p.2, hmem', rfl, rfl⟩
    · exact ⟨p.2, hmem', rfl, rfl⟩
  | duplicateNode cho m =>
    rcases duplicate_node_ff_cases cho m g with h | ⟨d, hpick, h⟩
    · rw [h]; exact ha
    · rw [h]
      have hfr : FreshId m g := hv
      have hfresh : ∀ x y, ffEdge g.feed_forward x y → x ≠ m ∧ y ≠ m := by
        rintro x y ⟨c', hc', rfl, rfl⟩
        exact hfr.2 c' (List.mem_append.mpr (Or.inl hc'))
      intro n ht
      refine acyclic_dup (d := d.id) hfresh ha n (Relation.TransGen.mono ?_ ht)
      rintro x y ⟨c', hc', rfl, rfl⟩
      rcases mem_foldl_sInsert hc' with hc' | hc'
      · rcases mem_foldl_sReplace hc' with hc' | hc'
        · exact Or.inl ⟨c', hc', rfl, rfl⟩
        · rcases List.mem_map.mp hc' with ⟨orig, ho, rfl⟩
          exact Or.inl ⟨orig, (List.mem_filter.mp ho).1, rfl, rfl⟩
      · rcases List.mem_append.mp hc' with hc' | hc'
        · rcases List.mem_map.mp hc' with ⟨base, hb, rfl⟩
          rcases List.mem_map.mp hb with ⟨orig, ho, rfl⟩
          have hoin := List.mem_filter.mp ho
          have hdi : orig.input = d.id := by simpa using hoin.2
          exact Or.inr (Or.inl ⟨rfl, ⟨orig, hoin.1, hdi, rfl⟩⟩)
        · rcases List.mem_map.mp hc' with ⟨orig, ho, rfl⟩
          have hoin := List.mem_filter.mp ho
          have hdo : orig.output = d.id := by simpa using hoin.2
          exact Or.inr (Or.inr ⟨rfl, ⟨orig, hoin.1, rfl, hdo⟩⟩)
  | removeConnection o =>
    rcases remove_connection_cases o g with h | ⟨c, h⟩
    · rw [h]; exact ha
    · rw [h]
      intro n ht
      refine ha n (Relation.TransGen.mono ?_ ht)
      rintro x y ⟨c', hc', rfl, rfl⟩
      exact ⟨c', mem_sRemove hc', rfl, rfl⟩
  | removeNode o =>
    rcases remove_node_cases o g with h | ⟨r, hfind, h⟩
    · rw [h]; exact ha
    · rw [h]
      intro n ht
      refine ha n (Relation.TransGen.mono ?_ ht)
      rintro x y ⟨c', hc', rfl, rfl⟩
      exact ⟨c', (List.mem_filter.mp hc').1, rfl, rfl⟩
  | removeRecurrentConnection o =>
    rw [remove_recurrent_ff o g]; exact ha

/-- A concrete genome exercising the C1 witness. -/
def c1Genome : Genome :=
  { inputs := [Node.new ⟨0⟩ Activation.Linear]
    hidden := []
    outputs := [Node.new ⟨1⟩ Activation.Tanh]
    feed_forward := [Connection.new ⟨0⟩ (1/2) ⟨1⟩]
    recurrent := [] }

/-- Witness for C1 at a concrete genome and mutation. -/
theorem C1_witness :
    MutValid c1Genome (Mut.addNode 0 Activation.Sigmoid ⟨7⟩)
    ∧ Acyclic c1Genome.feed_forward
    ∧ Acyclic (applyMut (Mut.addNode 0 Activation.Sigmoid ⟨7⟩)
        c1Genome).feed_forward :=
  ⟨(by decide : FreshId ⟨7⟩ c1Genome),
    acyclic_of_acyclicCheck (by decide),
    C1_acyclicity_mutation_invariant c1Genome
      (Mut.addNode 0 Activation.Sigmoid ⟨7⟩)
      (by decide : FreshId ⟨7⟩ c1Genome)
      (acyclic_of_acyclicCheck (by decide))⟩

/-! ## Claim C6: `add_recurrent_connection` -/

/-- C6's failing input: one input node 0, no hidden nodes, two output
nodes 1 and 2, and recurrent connections 0→1 and 0→2 already present.
The unconnected pair (1, 2) satisfies the claimed precondition. -/
def c6Genome : Genome :=
  { inputs := [Node.new ⟨0⟩ Activation.Linear]
    hidden := []
    outputs := [Node.new ⟨1⟩ Activation.Tanh, Node.new ⟨2⟩ Activation.Tanh]
    feed_forward := []
    recurrent := [Connection.new ⟨0⟩ 0 ⟨1⟩, Connection.new ⟨0⟩ 0 ⟨2⟩] }

/-- C6 (code bug): the pair (start = node 1 ∈ inputs ∪ hidden ∪ outputs,
end = node 2 ∈ hidden ∪ outputs, distinct, not recurrently connected)
exists, yet the mutation reports `CouldNotAddRecurrentConnection`.  The
scan window is sized `inputs.len() + hidden.len()` (here 1, so the
offset draw `floor(rng_f64 * 1)` is 0 for every RNG value) although the
start iterator chains inputs ++ hidden ++ outputs, so output nodes are
never tried as start candidates.  The weight oracle is irrelevant on the
error path and fixed to 0. -/
theorem C6_add_recurrent_misses_existing_pair :
    (Mutations.add_recurrent_connection 0 0 c6Genome
        = Except.error MutationError.CouldNotAddRecurrentConnection)
    ∧ Node.new ⟨1⟩ Activation.Tanh
        ∈ c6Genome.inputs ++ c6Genome.hidden ++ c6Genome.outputs
    ∧ Node.new ⟨2⟩ Activation.Tanh ∈ c6Genome.hidden ++ c6Genome.outputs
    ∧ (⟨1⟩ : Id) ≠ (⟨2⟩ : Id)
    ∧ sContains Connection.keq c6Genome.recurrent
        (Connection.new ⟨1⟩ 0 ⟨2⟩) = false := by
  refine ⟨rfl, ?_, ?_, ?_, ?_⟩ <;> decide

/-! ## Claim C7: `add_node` -/

/-- Look up a connection gene by its (input, output) identity. -/
def findConn (ff : Genes Connection) (a b : Id) : Option Connection :=
  ff.find? fun c => c.input == a && c.output == b

/-- Replacing every key-equal element by `x` makes the key lookup return
`x` whenever the key is present. -/
theorem find?_map_keq_replace {a b : Id} {w : ℚ} :
    ∀ {l : Genes Connection},
      (∃ y ∈ l, Connection.keq y (Connection.new a w b) = true) →
      ((l.map fun y => if Connection.keq y (Connection.new a w b)
          then Connection.new a w b else y).find?
        fun y => y.input == a && y.output == b)
        = some (Connection.new a w b) := by
  intro l
  induction l with
  | nil => rintro ⟨y, hy, _⟩; cases hy
  | cons z l ih =>
    rintro ⟨y, hy, hk⟩
    by_cases hka : Connection.keq z (Connection.new a w b) = true
    · have hpx : ((Connection.new a w b).input == a
          && (Connection.new a w b).output == b) = true := by
        simp [Connection.new]
      simp only [List.map_cons, hka, if_true, List.find?_cons, hpx]
    · have hpa : (z.input == a && z.output == b) = false := by
        rw [Bool.eq_false_iff]
        intro hz
        apply hka
        simp only [Connection.keq, Connection.new]
        exact hz
      simp only [List.map_cons, if_neg hka, List.find?_cons, hpa]
      apply ih
      rcases List.mem_cons.mp hy with rfl | hy'
      · exact absurd hk hka
      · exact ⟨y, hy', hk⟩

/-- C7: with a non-empty feed-forward set (some connection `c` is picked)
and a fresh minted id, `add_node` grows `feed_forward` by exactly 2 and
`hidden` by exactly 1, zeroes the split connection's weight, gives the
new incoming connection (old input → new node) weight 1, and gives the
new outgoing connection (new node → old output) the split connection's
former weight. -/
theorem C7_add_node_splits_connection (g : Genome) (cho : Nat)
    (act : Activation) (m : Id) (c : Connection)
    (hpick : randomPick cho g.feed_forward = some c)
    (hfresh : FreshId m g) :
    (Mutations.add_node cho act m g).feed_forward.length
        = g.feed_forward.length + 2
    ∧ (Mutations.add_node cho act m g).hidden.length = g.hidden.length + 1
    ∧ findConn (Mutations.add_node cho act m g).feed_forward c.input c.output
        = some (Connection.new c.input 0 c.output)
    ∧ findConn (Mutations.add_node cho act m g).feed_forward c.input m
        = some (Connection.new c.input 1 m)
    ∧ findConn (Mutations.add_node cho act m g).feed_forward m c.output
        = some (Connection.new m c.weight c.output) := by
  have hcmem : c ∈ g.feed_forward := by
    unfold randomPick at hpick
    exact List.get?_mem hpick
  have hffm : ∀ y ∈ g.feed_forward, y.input ≠ m ∧ y.output ≠ m := fun y hy =>
    hfresh.2 y (List.mem_append.mpr (Or.inl hy))
  have hcim : c.input ≠ m := (hffm c hcmem).1
  have hcom : c.output ≠ m := (hffm c hcmem).2
  unfold Mutations.add_node
  simp only [hpick]
  have h1 : sContains Connection.keq g.feed_forward
      (Connection.new c.input 1 m) = false := by
    rw [Bool.eq_false_iff]
    intro hcon
    rw [sContains, List.any_eq_true] at hcon
    obtain ⟨y, hy, hk⟩ := hcon
    simp only [Connection.keq, Bool.and_eq_true, beq_iff_eq] at hk
    exact (hffm y hy).2 hk.2
  rw [sInsert_eq_append h1]
  have h2 : sContains Connection.keq
      (g.feed_forward ++ [Connection.new c.input 1 m])
      (Connection.new m c.weight c.output) = false := by
    rw [Bool.eq_false_iff]
    intro hcon
    rw [sContains, List.any_eq_true] at hcon
    obtain ⟨y, hy, hk⟩ := hcon
    simp only [Connection.keq, Bool.and_eq_true, beq_iff_eq] at hk
    rcases List.mem_append.mp hy with hy | hy
    · exact (hffm y hy).1 hk.1
    · rcases List.mem_singleton.mp hy with rfl
      exact hcim hk.1
  rw [sInsert_eq_append h2]
  have hxc : sContains Connection.keq
      ((g.feed_forward ++ [Connection.new c.input 1 m])
        ++ [Connection.new m c.weight c.output])
      (Connection.new c.input 0 c.output) = true := by
    rw [sContains, List.any_eq_true]
    refine ⟨c, List.mem_append.mpr (Or.inl (List.mem_append.mpr (Or.inl hcmem))),
      by simp [Connection.keq, Connection.new]⟩
  unfold sReplace
  rw [if_pos hxc]
  have e1 : Connection.keq (Connection.new c.input 1 m)
      (Connection.new c.input 0 c.output) = false := by
    have hmo : (m == c.output) = false :=
      beq_eq_false_iff_ne.mpr fun h => hcom h.symm
    simp [Connection.keq, Connection.new, hmo]
  have e2 : Connection.keq (Connection.new m c.weight c.output)
      (Connection.new c.input 0 c.output) = false := by
    have hmi : (m == c.input) = false :=
      beq_eq_false_iff_ne.mpr fun h => hcim h.symm
    simp [Connection.keq, Connection.new, hmi]
  rw [List.map_append, List.map_append]
  simp only [List.map_cons, List.map_nil, e1, e2, Bool.false_eq_true, if_false]
  have hhid : sContains Node.keq g.hidden (Node.new m act) = false := by
    rw [Bool.eq_false_iff]
    intro hcon
    rw [sContains, List.any_eq_true] at hcon
    obtain ⟨y, hy, hk⟩ := hcon
    simp only [Node.keq, Node.new, beq_iff_eq] at hk
    exact hfresh.1 y
      (List.mem_append.mpr (Or.inl (List.mem_append.mpr (Or.inr hy)))) hk
  rw [sInsert_eq_append hhid]
  refine ⟨?_, ?_, ?_, ?_, ?_⟩
  · simp [List.length_append, List.length_map]
  · simp [List.length_append]
  · unfold findConn
    rw [List.find?_append, List.find?_append]
    have hself := find?_map_keq_replace (a := c.input) (b := c.output)
      (w := (0 : ℚ)) ⟨c, hcmem, by simp [Connection.keq, Connection.new]⟩
    rw [hself]
    rfl
  · unfold findConn
    rw [List.find?_append, List.find?_append]
    have hnone : (List.find?
        (fun y => y.input == c.input && y.output == m)
        (g.feed_forward.map fun y =>
          if Connection.keq y (Connection.new c.input 0 c.output)
          then Connection.new c.input 0 c.output else y)) = none := by
      rw [List.find?_eq_none]
      intro z hz
      rcases List.mem_map.mp hz with ⟨y, hy, rfl⟩
      by_cases hky : Connection.keq y (Connection.new c.input 0 c.output) = true
      · simp only [hky, if_true]
        intro hp
        simp only [Connection.new, Bool.and_eq_true, beq_iff_eq] at hp
        exact hcom hp.2
      · simp only [hky, if_false]
        intro hp
        simp only [Bool.and_eq_true, beq_iff_eq] at hp
        exact (hffm y hy).2 hp.2
    rw [hnone, Option.none_or]
    have hn1 : ((Connection.new c.input 1 m).input == c.input
        && (Connection.new c.input 1 m).output == m) = true := by
      simp [Connection.new]
    simp only [List.find?_cons, hn1, Option.or_some]
  · unfold findConn
    rw [List.find?_append, List.find?_append]
    have hnone : (List.find?
        (fun y => y.input == m && y.output == c.output)
        (g.feed_forward.map fun y =>
          if Connection.keq y (Connection.new c.input 0 c.output)
          then Connection.new c.input 0 c.output else y)) = none := by
      rw [List.find?_eq_none]
      intro z hz
      rcases List.mem_map.mp hz with ⟨y, hy, rfl⟩
      by_cases hky : Connection.keq y (Connection.new c.input 0 c.output) = true
      · simp only [hky, if_true]
        intro hp
        simp only [Connection.new, Bool.and_eq_true, beq_iff_eq] at hp
        exact hcim hp.1
      · simp only [hky, if_false]
        intro hp
        simp only [Bool.and_eq_true, beq_iff_eq] at hp
        exact (hffm y hy).1 hp.1
    rw [hnone, Option.none_or]
    have hn1 : ((Connection.new c.input 1 m).input == m
        && (Connection.new c.input 1 m).output == c.output) = false := by
      have hmi : (c.input == m) = false := beq_eq_false_iff_ne.mpr hcim
      simp [Connection.new, hmi]
    have hn2 : ((Connection.new m c.weight c.output).input == m
        && (Connection.new m c.weight c.output).output == c.output) = true := by
      simp [Connection.new]
    simp only [List.find?_cons, hn1, List.find?_nil, Option.none_or, hn2]

/-- Witness for C7 at a concrete genome. -/
theorem C7_witness :
    randomPick 0 c1Genome.feed_forward
        = some (Connection.new ⟨0⟩ (1/2) ⟨1⟩)
    ∧ FreshId ⟨9⟩ c1Genome
    ∧ ((Mutations.add_node 0 Activation.Relu ⟨9⟩ c1Genome).feed_forward.length
          = c1Genome.feed_forward.length + 2
      ∧ (Mutations.add_node 0 Activation.Relu ⟨9⟩ c1Genome).hidden.length
          = c1Genome.hidden.length + 1
      ∧ findConn (Mutations.add_node 0 Activation.Relu ⟨9⟩
            c1Genome).feed_forward ⟨0⟩ ⟨1⟩
          = some (Connection.new ⟨0⟩ 0 ⟨1⟩)
      ∧ findConn (Mutations.add_node 0 Activation.Relu ⟨9⟩
            c1Genome).feed_forward ⟨0⟩ ⟨9⟩
          = some (Connection.new ⟨0⟩ 1 ⟨9⟩)
      ∧ findConn (Mutations.add_node 0 Activation.Relu ⟨9⟩
            c1Genome).feed_forward ⟨9⟩ ⟨1⟩
          = some (Connection.new ⟨9⟩ (1/2) ⟨1⟩)) :=
  ⟨rfl, by decide,
    C7_add_node_splits_connection c1Genome 0 Activation.Relu ⟨9⟩
      (Connection.new ⟨0⟩ (1/2) ⟨1⟩) rfl (by decide)⟩

/-! ## Claim C8: `remove_node` -/

theorem has_alternative_output_spec {g : Genome} {node exclude : Id}
    (h : g.has_alternative_output node exclude = true) :
    ∃ c ∈ g.connections, c.input = node ∧ c.output ≠ exclude := by
  rw [Genome.has_alternative_output, List.any_eq_true] at h
  obtain ⟨c, hc, hne⟩ := h
  rcases List.mem_filter.mp hc with ⟨hmem, hin⟩
  exact ⟨c, hmem, by simpa using hin, by simpa using hne⟩

theorem has_alternative_input_spec {g : Genome} {node exclude : Id}
    (h : g.has_alternative_input node exclude = true) :
    ∃ c ∈ g.connections, c.output = node ∧ c.input ≠ exclude := by
  rw [Genome.has_alternative_input, List.any_eq_true] at h
  obtain ⟨c, hc, hne⟩ := h
  rcases List.mem_filter.mp hc with ⟨hmem, hin⟩
  exact ⟨c, hmem, by simpa using hin, by simpa using hne⟩

/-- C8: whenever `remove_node` succeeds it removed a hidden node `r`, and
no remaining former neighbour of `r` dangles: every former input
neighbour keeps at least one outgoing connection and every former output
neighbour keeps at least one incoming connection, counting feed-forward
and recurrent connections together. -/
theorem C8_remove_node_no_dangling (g : Genome) (o : Nat) (g' : Genome)
    (hok : Mutations.remove_node o g = Except.ok g') :
    ∃ r, ((g.hidden.rotate o).find? fun x => removableNode g x) = some r ∧
      ∀ x : Id, x ≠ r.id →
        ((∃ c ∈ g.connections, c.output = r.id ∧ c.input = x) →
          ∃ c' ∈ g'.connections, c'.input = x) ∧
        ((∃ c ∈ g.connections, c.input = r.id ∧ c.output = x) →
          ∃ c' ∈ g'.connections, c'.output = x) := by
  unfold Mutations.remove_node at hok
  split at hok
  case h_2 => cases hok
  case h_1 r hfind =>
    have hg' := Except.ok.inj hok
    refine ⟨r, hfind, ?_⟩
    have hrem := List.find?_some hfind
    rw [removableNode, Bool.and_eq_true] at hrem
    have hall1 := List.all_eq_true.mp hrem.1
    have hall2 := List.all_eq_true.mp hrem.2
    have hsurv : ∀ c' ∈ g.connections, c'.input ≠ r.id → c'.output ≠ r.id →
        c' ∈ g'.connections := by
      intro c' hc' hi ho
      rw [← hg']
      have hq : (!(c'.input == r.id) && !(c'.output == r.id)) = true := by
        simp [hi, ho]
      rcases List.mem_append.mp hc' with hc' | hc'
      · exact List.mem_append.mpr (Or.inl (List.mem_filter.mpr ⟨hc', hq⟩))
      · exact List.mem_append.mpr (Or.inr (List.mem_filter.mpr ⟨hc', hq⟩))
    intro x hx
    constructor
    · rintro ⟨c, hc, hco, hci⟩
      have h1 := hall1 c hc
      have hco' : (c.output == r.id) = true := by simpa using hco
      rw [hco', if_pos rfl] at h1
      obtain ⟨c', hc', hin, hout⟩ := has_alternative_output_spec h1
      refine ⟨c', hsurv c' hc' ?_ hout, by rw [hin, hci]⟩
      rw [hin, hci]
      exact hx
    · rintro ⟨c, hc, hci, hco⟩
      have h1 := hall2 c hc
      have hci' : (c.input == r.id) = true := by simpa using hci
      rw [hci', if_pos rfl] at h1
      obtain ⟨c', hc', hout, hin⟩ := has_alternative_input_spec h1
      refine ⟨c', hsurv c' hc' hin ?_, by rw [hout, hco]⟩
      rw [hout, hco]
      exact hx

/-- The genome of the crate's own `can_remove_node` test. -/
def c8Genome : Genome :=
  { inputs := [Node.new ⟨0⟩ Activation.Linear]
    hidden := [Node.new ⟨2⟩ Activation.Linear, Node.new ⟨3⟩ Activation.Linear]
    outputs := [Node.new ⟨1⟩ Activation.Linear]
    feed_forward := [Connection.new ⟨0⟩ 1 ⟨2⟩, Connection.new ⟨0⟩ 1 ⟨3⟩,
      Connection.new ⟨2⟩ 1 ⟨1⟩, Connection.new ⟨3⟩ 1 ⟨1⟩]
    recurrent := [] }

/-- The genome after `remove_node 0` on `c8Genome` (node 2 removed). -/
def c8GenomeAfter : Genome :=
  { inputs := [Node.new ⟨0⟩ Activation.Linear]
    hidden := [Node.new ⟨3⟩ Activation.Linear]
    outputs := [Node.new ⟨1⟩ Activation.Linear]
    feed_forward := [Connection.new ⟨0⟩ 1 ⟨3⟩, Connection.new ⟨3⟩ 1 ⟨1⟩]
    recurrent := [] }

/-- Witness for C8 at the crate's own test genome. -/
theorem C8_witness :
    ∃ r, ((c8Genome.hidden.rotate 0).find? fun x => removableNode c8Genome x)
        = some r ∧
      ∀ x : Id, x ≠ r.id →
        ((∃ c ∈ c8Genome.connections, c.output = r.id ∧ c.input = x) →
          ∃ c' ∈ c8GenomeAfter.connections, c'.input = x) ∧
        ((∃ c ∈ c8Genome.connections, c.input = r.id ∧ c.output = x) →
          ∃ c' ∈ c8GenomeAfter.connections, c'.output = x) :=
  C8_remove_node_no_dangling c8Genome 0 c8GenomeAfter rfl

/-! ## Claim C2: crossover -/

/-- `Genes::iterate_matching_genes`: for every gene identity present in
both sets, the pair (self's copy, other's copy), in self's order
(`intersection().map(|s| (s, other.get(s).unwrap()))`). -/
def matchingPairs {T : Type} (keq : T → T → Bool) (a b : Genes T) :
    List (T × T) :=
  (a.filter fun x => b.any fun y => keq x y).map fun x =>
    (x, (b.find? fun y => keq x y).getD x)

/-- `Genes::cross_in`: for each matching pair keep self's copy or other's
copy by a coin flip (`coin i` = true keeps self's, matching
`rng.gen::<f64>() < 0.5`), then append self's genes with no match in
other (`difference`); genes unique to `other` never enter. -/
def Genes.cross_in {T : Type} (keq : T → T → Bool) (a b : Genes T)
    (coin : Nat → Bool) : Genes T :=
  (matchingPairs keq a b).enum.map
    (fun p => if coin p.1 then p.2.1 else p.2.2)
  ++ a.filter fun x => !(b.any fun y => keq x y)

/-- `Genome::cross_in`: gene-set crossover on feed-forward, recurrent and
hidden; inputs and outputs cloned from `self`.  The source draws all
coins from one RNG in the order feed_forward, recurrent, hidden; the
three streams are separate oracles here. -/
def Genome.cross_in (g other : Genome)
    (coinFF coinRec coinH : Nat → Bool) : Genome :=
  { feed_forward :=
      Genes.cross_in Connection.keq g.feed_forward other.feed_forward coinFF
    recurrent := Genes.cross_in Connection.keq g.recurrent other.recurrent coinRec
    hidden := Genes.cross_in Node.keq g.hidden other.hidden coinH
    inputs := g.inputs
    outputs := g.outputs }

theorem enum_get? {α : Type} (l : List α) (i : Nat) :
    l.enum.get? i = (l.get? i).map fun x => (i, x) := by
  simp [List.enum, List.get?_eq_getElem?]

theorem find?_of_any {T : Type} {p : T → Bool} {l : List T}
    (h : l.any p = true) :
    ∃ o, l.find? p = some o ∧ o ∈ l ∧ p o = true := by
  cases hfind : l.find? p with
  | none =>
    rw [List.find?_eq_none] at hfind
    rw [List.any_eq_true] at h
    obtain ⟨y, hy, hp⟩ := h
    exact absurd hp (hfind y hy)
  | some o =>
    exact ⟨o, rfl, List.mem_of_find?_eq_some hfind, List.find?_some hfind⟩

/-- The C2 specification of one gene-set crossover: the result carries
exactly self's gene identities; every element is one of the two parent
copies; a gene matched in both parents contributes self's copy or
other's copy according to its coin; self's unmatched genes pass through
unchanged. -/
def crossSpec {T : Type} (keq : T → T → Bool) (a b res : Genes T)
    (coin : Nat → Bool) : Prop :=
  (∀ t ∈ res, ∃ u ∈ a, keq u t = true) ∧
  (∀ u ∈ a, ∃ t ∈ res, keq u t = true) ∧
  (∀ t ∈ res, t ∈ a ∨ t ∈ b) ∧
  (∀ u ∈ a, (¬ ∃ y ∈ b, keq u y = true) → u ∈ res) ∧
  (∀ i p, (matchingPairs keq a b).get? i = some p →
    (if coin i then p.1 else p.2) ∈ res)

theorem crossSpec_holds {T : Type} (keq : T → T → Bool)
    (hrefl : ∀ x, keq x x = true) (a b : Genes T) (coin : Nat → Bool) :
    crossSpec keq a b (Genes.cross_in keq a b coin) coin := by
  have pick_mem : ∀ i p, (matchingPairs keq a b).get? i = some p →
      (if coin i then p.1 else p.2) ∈ Genes.cross_in keq a b coin := by
    intro i p hget
    have henum : (matchingPairs keq a b).enum.get? i = some (i, p) := by
      rw [enum_get?, hget]; rfl
    have hmem := List.get?_mem henum
    exact List.mem_append.mpr (Or.inl (List.mem_map.mpr ⟨(i, p), hmem, rfl⟩))
  have pair_shape : ∀ q ∈ matchingPairs keq a b,
      q.1 ∈ a ∧ (b.any fun y => keq q.1 y) = true ∧ q.2 ∈ b ∧
        keq q.1 q.2 = true := by
    intro q hq
    rcases List.mem_map.mp hq with ⟨x, hx, rfl⟩
    rcases List.mem_filter.mp hx with ⟨hxa, hxany⟩
    obtain ⟨o, hfind, hob, hko⟩ := find?_of_any hxany
    rw [hfind]
    exact ⟨hxa, hxany, hob, hko⟩
  refine ⟨?_, ?_, ?_, ?_, pick_mem⟩
  · intro t ht
    rcases List.mem_append.mp ht with ht | ht
    · rcases List.mem_map.mp ht with ⟨q, hq, rfl⟩
      have hsh := pair_shape q.2 (snd_mem_of_mem_enum hq)
      by_cases hcoin : coin q.1 = true
      · rw [if_pos hcoin]
        exact ⟨q.2.1, hsh.1, hrefl _⟩
      · rw [if_neg hcoin]
        exact ⟨q.2.1, hsh.1, hsh.2.2.2⟩
    · rcases List.mem_filter.mp ht with ⟨hta, _⟩
      exact ⟨t, hta, hrefl t⟩
  · intro u hu
    by_cases hany : (b.any fun y => keq u y) = true
    · have hufil : u ∈ a.filter fun x => b.any fun y => keq x y :=
        List.mem_filter.mpr ⟨hu, hany⟩
      obtain ⟨i, hget⟩ := List.mem_iff_get?.mp hufil
      have hpget : (matchingPairs keq a b).get? i
          = some (u, (b.find? fun y => keq u y).getD u) := by
        rw [matchingPairs, List.get?_map, hget]
        rfl
      have := pick_mem i _ hpget
      by_cases hcoin : coin i = true
      · rw [if_pos hcoin] at this
        exact ⟨u, this, hrefl u⟩
      · rw [if_neg hcoin] at this
        obtain ⟨o, hfind, _, hko⟩ := find?_of_any hany
        refine ⟨_, this, ?_⟩
        rw [hfind]
        exact hko
    · refine ⟨u, ?_, hrefl u⟩
      exact List.mem_append.mpr (Or.inr (List.mem_filter.mpr
        ⟨hu, by simpa using hany⟩))
  · intro t ht
    rcases List.mem_append.mp ht with ht | ht
    · rcases List.mem_map.mp ht with ⟨q, hq, rfl⟩
      have hsh := pair_shape q.2 (snd_mem_of_mem_enum hq)
      by_cases hcoin : coin q.1 = true
      · rw [if_pos hcoin]; exact Or.inl hsh.1
      · rw [if_neg hcoin]; exact Or.inr hsh.2.2.1
    · exact Or.inl (List.mem_filter.mp ht).1
  · intro u hu hnm
    refine List.mem_append.mpr (Or.inr (List.mem_filter.mpr ⟨hu, ?_⟩))
    rw [Bool.not_eq_true', Bool.eq_false_iff]
    intro hany
    rw [List.any_eq_true] at hany
    exact hnm hany

/-- C2: `Genome::cross_in` returns a genome whose hidden, feed-forward
and recurrent sets carry exactly self's gene identities — each matched
gene appears as self's copy or other's copy according to its coin flip,
each gene unique to self appears unchanged, no gene unique to other
appears — and whose inputs and outputs are copied unchanged from self. -/
theorem C2_cross_in_rooted_at_self (g other : Genome)
    (cFF cRec cH : Nat → Bool) :
    (Genome.cross_in g other cFF cRec cH).inputs = g.inputs
    ∧ (Genome.cross_in g other cFF cRec cH).outputs = g.outputs
    ∧ crossSpec Connection.keq g.feed_forward other.feed_forward
        (Genome.cross_in g other cFF cRec cH).feed_forward cFF
    ∧ crossSpec Connection.keq g.recurrent other.recurrent
        (Genome.cross_in g other cFF cRec cH).recurrent cRec
    ∧ crossSpec Node.keq g.hidden other.hidden
        (Genome.cross_in g other cFF cRec cH).hidden cH :=
  ⟨rfl, rfl,
    crossSpec_holds Connection.keq (fun x => by simp [Connection.keq]) _ _ cFF,
    crossSpec_holds Connection.keq (fun x => by simp [Connection.keq]) _ _ cRec,
    crossSpec_holds Node.keq (fun x => by simp [Node.keq]) _ _ cH⟩

/-! ## Claim C9: genome equality and hashing -/

/-- `Connection::id()`: the identity key of a connection gene. -/
def Connection.id (c : Connection) : Id × Id := (c.input, c.output)

/-- `HashSet` equality as Rust's `PartialEq` computes it: equal sizes
and every element of `a` identity-equal to some element of `b`. -/
def genesEqB {T : Type} (keq : T → T → Bool) (a b : Genes T) : Bool :=
  a.length == b.length && a.all fun x => b.any fun y => keq x y

/-- The derived `PartialEq for Genome`: the five gene sets compare equal
(with the identity-only gene equalities). -/
def Genome.eqB (g1 g2 : Genome) : Bool :=
  genesEqB Node.keq g1.inputs g2.inputs &&
  genesEqB Node.keq g1.hidden g2.hidden &&
  genesEqB Node.keq g1.outputs g2.outputs &&
  genesEqB Connection.keq g1.feed_forward g2.feed_forward &&
  genesEqB Connection.keq g1.recurrent g2.recurrent

/-- `impl Hash for Genes`: XOR of the per-gene hashes; a gene's hash
stream is its identity key only, so the per-gene SeaHash is the abstract
function `h` applied to the key. -/
def genesHash {T K : Type} (key : T → K) (h : K → Nat) (l : Genes T) : Nat :=
  l.foldl (fun acc gene => acc ^^^ h (key gene)) 0

/-- The streamed content of the derived `Hash for Genome`: the five
per-set XOR words in field order; hashers consuming equal streams
produce equal hashes. -/
def genomeHash (hn : Id → Nat) (hc : Id × Id → Nat) (g : Genome) :
    Nat × Nat × Nat × Nat × Nat :=
  (genesHash Node.id hn g.inputs, genesHash Node.id hn g.hidden,
   genesHash Node.id hn g.outputs,
   genesHash Connection.id hc g.feed_forward,
   genesHash Connection.id hc g.recurrent)

/-- The sets' identity keys are duplicate-free (the `HashSet`
invariant). -/
def KeyNodup {T K : Type} (key : T → K) (l : Genes T) : Prop :=
  (l.map key).Nodup

/-- Two gene sets carry the same identity keys. -/
def SameKeys {T K : Type} (key : T → K) (a b : Genes T) : Prop :=
  (∀ x ∈ a, ∃ y ∈ b, key y = key x) ∧ (∀ y ∈ b, ∃ x ∈ a, key x = key y)

theorem keys_perm {T K : Type} [DecidableEq K] {key : T → K}
    {a b : Genes T} (hna : KeyNodup key a) (hnb : KeyNodup key b)
    (hs : SameKeys key a b) : List.Perm (a.map key) (b.map key) := by
  apply List.perm_of_nodup_nodup_toFinset_eq hna hnb
  ext k
  simp only [List.mem_toFinset, List.mem_map]
  constructor
  · rintro ⟨x, hx, rfl⟩
    obtain ⟨y, hy, hk⟩ := hs.1 x hx
    exact ⟨y, hy, hk⟩
  · rintro ⟨y, hy, rfl⟩
    obtain ⟨x, hx, hk⟩ := hs.2 y hy
    exact ⟨x, hx, hk⟩

theorem genesEqB_congr {T : Type} {k1 k2 : T → T → Bool}
    (h : ∀ x y, k1 x y = k2 x y) (a b : Genes T) :
    genesEqB k1 a b = genesEqB k2 a b := by
  unfold genesEqB
  have hfun : (fun (x : T) => b.any fun y => k1 x y)
      = fun x => b.any fun y => k2 x y := by
    funext x
    congr 1
    funext y
    exact h x y
  rw [hfun]

theorem connection_keq_eq_key (x y : Connection) :
    Connection.keq x y
      = @BEq.beq (Id × Id) instBEqOfDecidableEq
          (Connection.id x) (Connection.id y) := by
  have hd : (@BEq.beq (Id × Id) instBEqOfDecidableEq
      (Connection.id x) (Connection.id y))
      = decide (Connection.id x = Connection.id y) := rfl
  rw [hd, Bool.eq_iff_iff]
  simp [Connection.keq, Connection.id, decide_eq_true_eq, Prod.ext_iff]

theorem genes_eq_and_hash {T K : Type} [DecidableEq K] {key : T → K}
    {a b : Genes T} (hna : KeyNodup key a) (hnb : KeyNodup key b)
    (hs : SameKeys key a b) :
    genesEqB (fun x y => key x == key y) a b = true
    ∧ ∀ h : K → Nat, genesHash key h a = genesHash key h b := by
  have hperm := keys_perm hna hnb hs
  constructor
  · rw [genesEqB, Bool.and_eq_true]
    constructor
    · have : a.length = b.length := by
        have := hperm.length_eq
        simpa using this
      simpa using this
    · rw [List.all_eq_true]
      intro x hx
      obtain ⟨y, hy, hk⟩ := hs.1 x hx
      rw [List.any_eq_true]
      exact ⟨y, hy, by simp [hk]⟩
  · intro h
    haveI : RightCommutative (fun (acc k : Nat) => acc ^^^ k) :=
      ⟨fun p q r => by simp [Nat.xor_assoc, Nat.xor_comm q r]⟩
    have hmapperm : List.Perm ((a.map key).map h) ((b.map key).map h) :=
      hperm.map h
    have hfold := List.Perm.foldl_eq (f := fun (acc k : Nat) => acc ^^^ k)
      hmapperm 0
    simpa [genesHash, List.foldl_map] using hfold

/-- All five sets of a genome have duplicate-free identity keys. -/
def GenomeKeyNodup (g : Genome) : Prop :=
  KeyNodup Node.id g.inputs ∧ KeyNodup Node.id g.hidden ∧
  KeyNodup Node.id g.outputs ∧ KeyNodup Connection.id g.feed_forward ∧
  KeyNodup Connection.id g.recurrent

/-- Set-for-set identical identity keys. -/
def GenomeSameKeys (g1 g2 : Genome) : Prop :=
  SameKeys Node.id g1.inputs g2.inputs ∧
  SameKeys Node.id g1.hidden g2.hidden ∧
  SameKeys Node.id g1.outputs g2.outputs ∧
  SameKeys Connection.id g1.feed_forward g2.feed_forward ∧
  SameKeys Connection.id g1.recurrent g2.recurrent

instance (g : Genome) : Decidable (GenomeKeyNodup g) := by
  unfold GenomeKeyNodup KeyNodup; infer_instance

instance (g1 g2 : Genome) : Decidable (GenomeSameKeys g1 g2) := by
  unfold GenomeSameKeys SameKeys; infer_instance

/-- C9: genome equality and hashing ignore connection weights, node
activation functions and insertion order — two genomes whose node sets
carry the same node ids and whose connection sets carry the same
(input, output) pairs compare equal and hash identically (for every
per-gene hash function). -/
theorem C9_eq_hash_ignore_weights_activations (g1 g2 : Genome)
    (hn1 : GenomeKeyNodup g1) (hn2 : GenomeKeyNodup g2)
    (hs : GenomeSameKeys g1 g2) :
    Genome.eqB g1 g2 = true
    ∧ ∀ (hn : Id → Nat) (hc : Id × Id → Nat),
        genomeHash hn hc g1 = genomeHash hn hc g2 := by
  have e1 := genes_eq_and_hash hn1.1 hn2.1 hs.1
  have e2 := genes_eq_and_hash hn1.2.1 hn2.2.1 hs.2.1
  have e3 := genes_eq_and_hash hn1.2.2.1 hn2.2.2.1 hs.2.2.1
  have e4 := genes_eq_and_hash hn1.2.2.2.1 hn2.2.2.2.1 hs.2.2.2.1
  have e5 := genes_eq_and_hash hn1.2.2.2.2 hn2.2.2.2.2 hs.2.2.2.2
  constructor
  · rw [Genome.eqB]
    have k1 : genesEqB Node.keq g1.inputs g2.inputs = true := e1.1
    have k2 : genesEqB Node.keq g1.hidden g2.hidden = true := e2.1
    have k3 : genesEqB Node.keq g1.outputs g2.outputs = true := e3.1
    have k4 : genesEqB Connection.keq g1.feed_forward g2.feed_forward = true := by
      rw [genesEqB_congr connection_keq_eq_key]
      exact e4.1
    have k5 : genesEqB Connection.keq g1.recurrent g2.recurrent = true := by
      rw [genesEqB_congr connection_keq_eq_key]
      exact e5.1
    rw [k1, k2, k3, k4, k5]
    rfl
  · intro hn hc
    rw [genomeHash, genomeHash, e1.2 hn, e2.2 hn, e3.2 hn, e4.2 hc, e5.2 hc]

/-- A C9 witness pair: same ids and keys, different insertion order,
weights and activations. -/
def c9GenomeA : Genome :=
  { inputs := [Node.new ⟨1⟩ Activation.Linear, Node.new ⟨0⟩ Activation.Linear]
    hidden := [Node.new ⟨4⟩ Activation.Tanh]
    outputs := [Node.new ⟨2⟩ Activation.Linear]
    feed_forward := [Connection.new ⟨0⟩ 1 ⟨4⟩, Connection.new ⟨4⟩ (1/2) ⟨2⟩]
    recurrent := [Connection.new ⟨2⟩ (1/4) ⟨4⟩] }

/-- The other half of the C9 witness pair. -/
def c9GenomeB : Genome :=
  { inputs := [Node.new ⟨0⟩ Activation.Linear, Node.new ⟨1⟩ Activation.Linear]
    hidden := [Node.new ⟨4⟩ Activation.Sigmoid]
    outputs := [Node.new ⟨2⟩ Activation.Tanh]
    feed_forward := [Connection.new ⟨4⟩ (1/3) ⟨2⟩, Connection.new ⟨0⟩ 0 ⟨4⟩]
    recurrent := [Connection.new ⟨2⟩ (3/4) ⟨4⟩] }

/-- Witness for C9. -/
theorem C9_witness :
    GenomeKeyNodup c9GenomeA ∧ GenomeKeyNodup c9GenomeB
    ∧ GenomeSameKeys c9GenomeA c9GenomeB
    ∧ Genome.eqB c9GenomeA c9GenomeB = true
    ∧ genomeHash (fun i => i.val) (fun p => p.1.val + 1000 * p.2.val)
        c9GenomeA
      = genomeHash (fun i => i.val) (fun p => p.1.val + 1000 * p.2.val)
        c9GenomeB :=
  ⟨by decide, by decide, by decide,
    (C9_eq_hash_ignore_weights_activations c9GenomeA c9GenomeB
      (by decide) (by decide) (by decide)).1,
    (C9_eq_hash_ignore_weights_activations c9GenomeA c9GenomeB
      (by decide) (by decide) (by decide)).2 _ _⟩

/-! ## Claim C10: `Genome::new` determinism -/

/-- `parameters.rs::Structure` (the fields `Genome::new` consumes; the
weight parameters live in other versions' `Structure`). -/
structure Structure where
  number_of_inputs : Nat
  number_of_outputs : Nat
  percent_of_connected_inputs : ℚ
  outputs_activation : Activation
  seed : Nat

/-- `Genome::new(structure)`: input and output node ids are drawn from a
`SmallRng` seeded with a SeaHash of exactly `number_of_inputs`,
`number_of_outputs` and `seed`; the two external algorithms (seahash,
rand) are the abstract stream `idStream` applied to those three fields
and the draw index.  Inputs take `Linear`, outputs the configured
activation; hidden and both connection sets start empty. -/
def Genome.new (idStream : Nat → Nat → Nat → Nat → Id) (st : Structure) :
    Genome :=
  { inputs := (List.range st.number_of_inputs).map fun k =>
      Node.new (idStream st.number_of_inputs st.number_of_outputs st.seed k)
        Activation.Linear
    outputs := (List.range st.number_of_outputs).map fun k =>
      Node.new (idStream st.number_of_inputs st.number_of_outputs st.seed
        (st.number_of_inputs + k)) st.outputs_activation
    hidden := []
    feed_forward := []
    recurrent := [] }

/-- C10: two separate `Genome::new` calls agreeing on number_of_inputs,
number_of_outputs and seed produce the same input node ids and the same
output node ids (regardless of the remaining structure fields), with
hidden and both connection sets empty — no shared identity source is
needed, since the id stream is a pure function of those three fields. -/
theorem C10_new_deterministic (idStream : Nat → Nat → Nat → Nat → Id)
    (s1 s2 : Structure)
    (hi : s1.number_of_inputs = s2.number_of_inputs)
    (ho : s1.number_of_outputs = s2.number_of_outputs)
    (hs : s1.seed = s2.seed) :
    (Genome.new idStream s1).inputs.map Node.id
        = (Genome.new idStream s2).inputs.map Node.id
    ∧ (Genome.new idStream s1).outputs.map Node.id
        = (Genome.new idStream s2).outputs.map Node.id
    ∧ (Genome.new idStream s1).hidden = []
    ∧ (Genome.new idStream s1).feed_forward = []
    ∧ (Genome.new idStream s1).recurrent = []
    ∧ (Genome.new idStream s2).hidden = []
    ∧ (Genome.new idStream s2).feed_forward = []
    ∧ (Genome.new idStream s2).recurrent = [] := by
  refine ⟨?_, ?_, rfl, rfl, rfl, rfl, rfl, rfl⟩
  · simp [Genome.new, Node.new, List.map_map, hi, ho, hs, Function.comp]
  · simp [Genome.new, Node.new, List.map_map, hi, ho, hs, Function.comp]

/-- Witness for C10: structures differing in connectivity percent and
output activation but agreeing on the three seed fields. -/
theorem C10_witness :
    (3 : Nat) = 3 ∧ (2 : Nat) = 2 ∧ (41 : Nat) = 41
    ∧ ((Genome.new (fun a b c k => ⟨a + b + c + k⟩)
          ⟨3, 2, 1, Activation.Tanh, 41⟩).inputs.map Node.id
        = (Genome.new (fun a b c k => ⟨a + b + c + k⟩)
          ⟨3, 2, 0, Activation.Sigmoid, 41⟩).inputs.map Node.id) := by
  refine ⟨rfl, rfl, rfl, ?_⟩
  exact (C10_new_deterministic (fun a b c k => ⟨a + b + c + k⟩)
    ⟨3, 2, 1, Activation.Tanh, 41⟩ ⟨3, 2, 0, Activation.Sigmoid, 41⟩
    rfl rfl rfl).1

/-! ## Claim C4: compatibility distance -/

/-- An idealised `f64` for the compatibility computation: `nan`, signed
infinities (`inf true` is negative) and exact finite values.  Finite
arithmetic is exact; the special values follow IEEE-754 as the `f64`
operations used by the source produce them (`0.0/0.0` and nan
propagation give nan, `x/0.0` with `x ≠ 0` gives a signed infinity,
comparisons with nan are false). -/
inductive F where
  | nan
  | inf (neg : Bool)
  | fin (q : ℚ)
deriving DecidableEq, Repr

def F.add : F → F → F
  | nan, _ => nan
  | _, nan => nan
  | inf s, inf t => if s = t then inf s else nan
  | inf s, fin _ => inf s
  | fin _, inf t => inf t
  | fin a, fin b => fin (a + b)

def F.sub : F → F → F
  | nan, _ => nan
  | _, nan => nan
  | inf s, inf t => if s = t then nan else inf s
  | inf s, fin _ => inf s
  | fin _, inf t => inf (!t)
  | fin a, fin b => fin (a - b)

def F.abs : F → F
  | nan => nan
  | inf _ => inf false
  | fin a => fin |a|

def F.mul : F → F → F
  | nan, _ => nan
  | _, nan => nan
  | inf s, inf t => inf (xor s t)
  | inf s, fin b => if b = 0 then nan else inf (xor s (decide (b < 0)))
  | fin a, inf t => if a = 0 then nan else inf (xor (decide (a < 0)) t)
  | fin a, fin b => fin (a * b)

def F.div : F → F → F
  | nan, _ => nan
  | _, nan => nan
  | inf _, inf _ => nan
  | inf s, fin b => inf (xor s (decide (b < 0)))
  | fin _, inf _ => fin 0
  | fin a, fin b =>
    if b = 0 then (if a = 0 then nan else inf (decide (a < 0)))
    else fin (a / b)

def F.gt : F → F → Bool
  | nan, _ => false
  | _, nan => false
  | inf s, inf t => !s && t
  | inf s, fin _ => !s
  | fin _, inf t => t
  | fin a, fin b => decide (b < a)

/-- `compatibility_distance.rs::CompatibilityDistance::compatability_distance`:
the 4-tuple (overall, connection term, weight term, activation term),
computed in `F` over the matching/unique gene iterations. -/
def compatability_distance (g0 g1 : Genome) (fc fw fa : ℚ) :
    F × F × F × F :=
  let ffPairs := matchingPairs Connection.keq g0.feed_forward g1.feed_forward
  let recPairs := matchingPairs Connection.keq g0.recurrent g1.recurrent
  let weight_difference : F := (ffPairs ++ recPairs).foldl
    (fun acc p =>
      F.add acc (F.abs (F.sub (F.fin p.1.weight) (F.fin p.2.weight))))
    (F.fin 0)
  let matching_connections_count : F :=
    F.fin ((ffPairs.length + recPairs.length : Nat) : ℚ)
  let different_connections_count : F :=
    F.fin (((g0.feed_forward.filter fun x =>
        !(g1.feed_forward.any fun y => Connection.keq x y)).length
      + (g1.feed_forward.filter fun x =>
        !(g0.feed_forward.any fun y => Connection.keq x y)).length
      + (g0.recurrent.filter fun x =>
        !(g1.recurrent.any fun y => Connection.keq x y)).length
      + (g1.recurrent.filter fun x =>
        !(g0.recurrent.any fun y => Connection.keq x y)).length : Nat) : ℚ)
  let hidPairs := matchingPairs Node.keq g0.hidden g1.hidden
  let activation_difference : F :=
    F.fin (((hidPairs.filter fun p =>
      !(p.1.activation == p.2.activation)).length : Nat) : ℚ)
  let matching_nodes_count : F := F.fin ((hidPairs.length : Nat) : ℚ)
  let maximum_weight_difference := F.mul matching_connections_count (F.fin 2)
  let scaled_connection_difference :=
    F.div (F.mul (F.fin fc) different_connections_count)
      (F.add matching_connections_count different_connections_count)
  let scaled_weight_difference :=
    F.mul (F.fin fw)
      (if F.gt maximum_weight_difference (F.fin 0) = true
        then F.div weight_difference maximum_weight_difference else F.fin 0)
  let scaled_activation_difference :=
    F.mul (F.fin fa)
      (if F.gt matching_nodes_count (F.fin 0) = true
        then F.div activation_difference matching_nodes_count else F.fin 0)
  let overall := F.div
    (F.add (F.add scaled_connection_difference scaled_weight_difference)
      scaled_activation_difference)
    (F.fin (fc + fw + fa))
  (overall, scaled_connection_difference, scaled_weight_difference,
    scaled_activation_difference)

/-- `impl PartialEq for Connection` agrees with the `(input, output)` key. -/
theorem connection_keq_key (u v : Connection) :
    Connection.keq u v = true ↔ Connection.id u = Connection.id v := by
  simp [Connection.keq, Connection.id, Prod.ext_iff]

/-- `impl PartialEq for Node` agrees with the id key. -/
theorem node_keq_key (u v : Node) :
    Node.keq u v = true ↔ Node.id u = Node.id v := by
  simp [Node.keq]

/-- In a duplicate-key-free set the first identity match of a member is the
member itself. -/
theorem find?_key_self {T K : Type} {key : T → K}
    {keq : T → T → Bool} (hbr : ∀ u v, keq u v = true ↔ key u = key v) :
    ∀ {l : Genes T}, KeyNodup key l → ∀ x ∈ l,
      (l.find? fun y => keq x y) = some x := by
  intro l
  induction l with
  | nil => intro _ x hx; exact absurd hx (List.not_mem_nil x)
  | cons a t ih =>
    intro hnd x hx
    rw [KeyNodup, List.map_cons, List.nodup_cons] at hnd
    rcases List.mem_cons.mp hx with rfl | hx'
    · have h1 : keq x x = true := (hbr x x).mpr rfl
      simp only [List.find?_cons, h1]
    · have h0 : keq x a = false := by
        rw [Bool.eq_false_iff]
        intro hk
        have hkey := (hbr x a).mp hk
        exact hnd.1 (hkey ▸ List.mem_map.mpr ⟨x, hx', rfl⟩)
      simp only [List.find?_cons, h0]
      exact ih hnd.2 x hx'

/-- The matching-gene pairs of a duplicate-key-free set with itself pair
every gene with itself. -/
theorem matchingPairs_self {T K : Type} {key : T → K}
    {keq : T → T → Bool} (hbr : ∀ u v, keq u v = true ↔ key u = key v)
    {l : Genes T} (hnd : KeyNodup key l) :
    matchingPairs keq l l = l.map fun x => (x, x) := by
  unfold matchingPairs
  have hfil : (l.filter fun x => l.any fun y => keq x y) = l := by
    apply List.filter_eq_self.mpr
    intro x hx
    exact List.any_eq_true.mpr ⟨x, hx, (hbr x x).mpr rfl⟩
  rw [hfil]
  apply List.map_congr_left
  intro x hx
  rw [find?_key_self hbr hnd x hx]
  rfl

/-- The accumulated weight difference over self-paired connections is 0. -/
theorem wdiff_fold_self :
    ∀ (l : List (Connection × Connection)), (∀ p ∈ l, p.1 = p.2) →
      l.foldl (fun acc p =>
          F.add acc (F.abs (F.sub (F.fin p.1.weight) (F.fin p.2.weight))))
        (F.fin 0) = F.fin 0 := by
  intro l
  induction l with
  | nil => intro _; rfl
  | cons p t ih =>
    intro h
    rw [List.foldl_cons]
    have hp : p.1 = p.2 := h p (List.mem_cons_self p t)
    have hstep : F.add (F.fin 0)
        (F.abs (F.sub (F.fin p.1.weight) (F.fin p.2.weight))) = F.fin 0 := by
      rw [hp]
      simp [F.add, F.sub, F.abs, sub_self]
    rw [hstep]
    exact ih fun q hq => h q (List.mem_cons_of_mem p hq)

/-- No connection gene is unique with respect to the set itself. -/
theorem self_unique_filter_nil (l : Genes Connection) :
    (l.filter fun x => !(l.any fun y => Connection.keq x y)) = [] := by
  rw [List.filter_eq_nil_iff]
  intro a ha h
  rw [Bool.not_eq_true'] at h
  rw [List.any_eq_false] at h
  exact h a ha (by simp [Connection.keq])

/-- Self-paired hidden nodes never differ in activation. -/
theorem self_activation_filter_nil (l : Genes Node) :
    ((l.map fun x => (x, x)).filter
      fun p => !(p.1.activation == p.2.activation)) = [] := by
  rw [List.filter_eq_nil_iff]
  intro p hp
  rcases List.mem_map.mp hp with ⟨x, hx, rfl⟩
  simp

def c4Genome : Genome :=
  { inputs := [Node.new ⟨0⟩ Activation.Linear]
    hidden := []
    outputs := [Node.new ⟨1⟩ Activation.Tanh]
    feed_forward := []
    recurrent := [] }

/-- C4 counterexample: for a genome with no connection genes the claim as
stated fails — `matching + different` connection counts are both zero, so
the connection term is `0.0/0.0`, i.e. NaN, and so is the total. -/
theorem C4_self_distance_counterexample :
    compatability_distance c4Genome c4Genome 1 1 1
      ≠ (F.fin 0, F.fin 0, F.fin 0, F.fin 0)
    ∧ (compatability_distance c4Genome c4Genome 1 1 1).1 = F.nan
    ∧ (compatability_distance c4Genome c4Genome 1 1 1).2.1 = F.nan := by
  have h2 : (compatability_distance c4Genome c4Genome 1 1 1).2.1 = F.nan := by
    norm_num [compatability_distance, matchingPairs, c4Genome,
      F.add, F.mul, F.div, F.gt]
  have h1 : (compatability_distance c4Genome c4Genome 1 1 1).1 = F.nan := by
    norm_num [compatability_distance, matchingPairs, c4Genome,
      F.add, F.mul, F.div, F.gt]
  refine ⟨?_, h1, h2⟩
  intro heq
  rw [heq] at h2
  exact F.noConfusion h2

/-- C4 (amended): for every genome with at least one connection gene,
duplicate-free gene identities (the `HashSet` invariant) and a nonzero
factor sum, the compatibility distance of the genome with itself is
`(0, 0, 0, 0)` in all four components. -/
theorem C4_self_distance_zero (g : Genome) (fc fw fa : ℚ)
    (hconn : g.feed_forward.length + g.recurrent.length ≠ 0)
    (hnff : KeyNodup Connection.id g.feed_forward)
    (hnrec : KeyNodup Connection.id g.recurrent)
    (hnhid : KeyNodup Node.id g.hidden)
    (hfac : fc + fw + fa ≠ 0) :
    compatability_distance g g fc fw fa
      = (F.fin 0, F.fin 0, F.fin 0, F.fin 0) := by
  have hff := matchingPairs_self connection_keq_key hnff
  have hrec := matchingPairs_self connection_keq_key hnrec
  have hhid := matchingPairs_self node_keq_key hnhid
  have hwd : ((g.feed_forward.map fun x => (x, x)) ++
      (g.recurrent.map fun x => (x, x))).foldl
      (fun acc p =>
        F.add acc (F.abs (F.sub (F.fin p.1.weight) (F.fin p.2.weight))))
      (F.fin 0) = F.fin 0 := by
    apply wdiff_fold_self
    intro p hp
    rcases List.mem_append.mp hp with hp | hp <;>
    · rcases List.mem_map.mp hp with ⟨x, _, rfl⟩
      rfl
  have hM : (0:ℚ) < (g.feed_forward.length : ℚ) + (g.recurrent.length : ℚ) := by
    have hpos := Nat.pos_of_ne_zero hconn
    exact_mod_cast hpos
  have hM2 : (0:ℚ)
      < ((g.feed_forward.length : ℚ) + (g.recurrent.length : ℚ)) * 2 := by
    linarith
  simp only [compatability_distance]
  rw [hff, hrec, hhid, hwd, self_unique_filter_nil g.feed_forward,
      self_unique_filter_nil g.recurrent, self_activation_filter_nil g.hidden]
  rcases Nat.eq_zero_or_pos g.hidden.length with hh | hh
  · simp [F.add, F.mul, F.div, F.gt, hh, hM.ne', hM2, hM2.ne', hfac,
      Nat.cast_add, mul_zero, zero_div, add_zero, zero_add]
  · have hH : (0:ℚ) < (g.hidden.length : ℚ) := by exact_mod_cast hh
    simp [F.add, F.mul, F.div, F.gt, hM.ne', hM2, hM2.ne', hfac, hH, hH.ne',
      Nat.cast_add, mul_zero, zero_div, add_zero, zero_add]

def c4WGenome : Genome :=
  { inputs := [Node.new ⟨0⟩ Activation.Linear]
    hidden := [Node.new ⟨2⟩ Activation.Tanh]
    outputs := [Node.new ⟨1⟩ Activation.Tanh]
    feed_forward := [Connection.new ⟨0⟩ (1/2) ⟨2⟩, Connection.new ⟨2⟩ 1 ⟨1⟩]
    recurrent := [Connection.new ⟨1⟩ 1 ⟨1⟩] }

theorem C4_witness :
    compatability_distance c4WGenome c4WGenome 1 0 0
      = (F.fin 0, F.fin 0, F.fin 0, F.fin 0) :=
  C4_self_distance_zero c4WGenome 1 0 0 (by decide)
    (by unfold KeyNodup; decide) (by unfold KeyNodup; decide)
    (by unfold KeyNodup; decide) (by simp)

/-! ## Claim C5: weight cap of ChangeWeights -/

/-- Modelled from the spec: the reflect-and-halve loop of
`rng.rs::GenomeRng::weight_perturbation` only ever returns a value in
`[-cap, cap]` (when it terminates). -/
theorem weight_perturbation_mem (cap w : ℚ) :
    ∀ (f : Nat) (p r : ℚ), weight_perturbation cap w f p = some r →
      -cap ≤ r ∧ r ≤ cap := by
  intro f
  induction f with
  | zero =>
    intro p r h
    simp only [weight_perturbation] at h
    by_cases hc : w + p > cap ∨ w + p < -cap
    · rw [if_pos hc] at h
      exact Option.noConfusion h
    · rw [if_neg hc] at h
      have hr := Option.some.inj h
      push_neg at hc
      subst hr
      exact ⟨hc.2, hc.1⟩
  | succ f ih =>
    intro p r h
    simp only [weight_perturbation] at h
    by_cases hc : w + p > cap ∨ w + p < -cap
    · rw [if_pos hc] at h
      exact ih (-p / 2) r h
    · rw [if_neg hc] at h
      have hr := Option.some.inj h
      push_neg at hc
      subst hr
      exact ⟨hc.2, hc.1⟩

/-- The single-reflection update of `change_weights.rs` keeps an in-range
weight in range for an in-range perturbation. -/
theorem perturbWeight_mem {cap p w : ℚ} (hw1 : -cap ≤ w) (hw2 : w ≤ cap)
    (hp1 : -cap ≤ p) (hp2 : p ≤ cap) :
    -cap ≤ perturbWeight cap p w ∧ perturbWeight cap p w ≤ cap := by
  rw [perturbWeight]
  by_cases hc : w + p > cap ∨ w + p < -cap
  · rw [if_pos hc]
    rcases hc with hc | hc
    · constructor <;> linarith
    · constructor <;> linarith
  · rw [if_neg hc]
    push_neg at hc
    exact ⟨hc.2, hc.1⟩

/-- All connection weights of the genome lie in `[-cap, cap]`. -/
def WeightsIn (cap : ℚ) (g : Genome) : Prop :=
  (∀ c ∈ g.feed_forward, -cap ≤ c.weight ∧ c.weight ≤ cap) ∧
  (∀ c ∈ g.recurrent, -cap ≤ c.weight ∧ c.weight ≤ cap)

/-- One application of `change_weights` keeps all weights in range when
the drain orders are genuine permutations and every sampled perturbation
is in range. -/
theorem change_weights_preserves (pp cap : ℚ) (sf sr : Genes Connection)
    (pf pr : Nat → ℚ) (g : Genome)
    (hsf : List.Perm sf g.feed_forward) (hsr : List.Perm sr g.recurrent)
    (hpf : ∀ i, -cap ≤ pf i ∧ pf i ≤ cap)
    (hpr : ∀ i, -cap ≤ pr i ∧ pr i ≤ cap)
    (hg : WeightsIn cap g) :
    WeightsIn cap (Mutations.change_weights pp cap sf sr pf pr g) := by
  constructor
  · intro c hc
    simp only [Mutations.change_weights] at hc
    rcases List.mem_map.mp hc with ⟨p, hpmem, hceq⟩
    have hd : p.2 ∈ sf := snd_mem_of_mem_enum hpmem
    have hw := hg.1 p.2 (hsf.mem_iff.mp hd)
    subst hceq
    by_cases hlt : p.1 < (⌈pp * (g.feed_forward.length : ℚ)⌉).toNat
    · rw [if_pos hlt]
      exact perturbWeight_mem hw.1 hw.2 (hpf p.1).1 (hpf p.1).2
    · rw [if_neg hlt]
      exact hw
  · intro c hc
    simp only [Mutations.change_weights] at hc
    rcases List.mem_map.mp hc with ⟨p, hpmem, hceq⟩
    have hd : p.2 ∈ sr := snd_mem_of_mem_enum hpmem
    have hw := hg.2 p.2 (hsr.mem_iff.mp hd)
    subst hceq
    by_cases hlt : p.1 < (⌈pp * (g.recurrent.length : ℚ)⌉).toNat
    · rw [if_pos hlt]
      exact perturbWeight_mem hw.1 hw.2 (hpr p.1).1 (hpr p.1).2
    · rw [if_neg hlt]
      exact hw

/-- One drawn `ChangeWeights` application: the drain orders and the
sampled (already reflected) perturbations. -/
structure CWStep where
  pp : ℚ
  shufFF : Genes Connection
  shufRec : Genes Connection
  pertFF : Nat → ℚ
  pertRec : Nat → ℚ

/-- Consecutive `change_weights` applications. -/
def applyCWs (cap : ℚ) : Genome → List CWStep → Genome
  | g, [] => g
  | g, st :: rest =>
    applyCWs cap
      (Mutations.change_weights st.pp cap st.shufFF st.shufRec
        st.pertFF st.pertRec g) rest

/-- The oracles are genuine: each drain order is a permutation of the
then-current set and each perturbation is a value the reflect-and-halve
sampler `weight_perturbation cap 0` can return. -/
def ValidCWs (cap : ℚ) : Genome → List CWStep → Prop
  | _, [] => True
  | g, st :: rest =>
    (List.Perm st.shufFF g.feed_forward ∧ List.Perm st.shufRec g.recurrent ∧
      (∀ i, ∃ f p0, weight_perturbation cap 0 f p0 = some (st.pertFF i)) ∧
      (∀ i, ∃ f p0, weight_perturbation cap 0 f p0 = some (st.pertRec i))) ∧
    ValidCWs cap
      (Mutations.change_weights st.pp cap st.shufFF st.shufRec
        st.pertFF st.pertRec g) rest

/-- C5: the reflect-and-halve sampler only returns values in
`[-cap, cap]`, and any number of consecutive `ChangeWeights`
applications with genuine oracles keeps every feed-forward and
recurrent weight of a genome whose weights start in `[-cap, cap]`
inside `[-cap, cap]`. -/
theorem C5_change_weights_capped :
    (∀ (cap w : ℚ) (f : Nat) (p r : ℚ),
      weight_perturbation cap w f p = some r → -cap ≤ r ∧ r ≤ cap)
    ∧ ∀ (cap : ℚ) (g : Genome) (steps : List CWStep),
        ValidCWs cap g steps → WeightsIn cap g →
        WeightsIn cap (applyCWs cap g steps) := by
  constructor
  · intro cap w f p r h
    exact weight_perturbation_mem cap w f p r h
  · intro cap g steps
    induction steps generalizing g with
    | nil =>
      intro _ hg
      exact hg
    | cons st rest ih =>
      intro hv hg
      rw [applyCWs]
      apply ih _ hv.2
      apply change_weights_preserves st.pp cap st.shufFF st.shufRec
        st.pertFF st.pertRec g hv.1.1 hv.1.2.1
      · intro i
        rcases hv.1.2.2.1 i with ⟨f, p0, hf⟩
        exact weight_perturbation_mem cap 0 f p0 (st.pertFF i) hf
      · intro i
        rcases hv.1.2.2.2 i with ⟨f, p0, hf⟩
        exact weight_perturbation_mem cap 0 f p0 (st.pertRec i) hf
      · exact hg

def c5Genome : Genome :=
  { inputs := [Node.new ⟨0⟩ Activation.Linear]
    hidden := []
    outputs := [Node.new ⟨1⟩ Activation.Tanh]
    feed_forward := [Connection.new ⟨0⟩ (1/2) ⟨1⟩]
    recurrent := [] }

def c5Step : CWStep :=
  { pp := 1
    shufFF := [Connection.new ⟨0⟩ (1/2) ⟨1⟩]
    shufRec := []
    pertFF := fun _ => 3/4
    pertRec := fun _ => 0 }

theorem C5_witness :
    ValidCWs 1 c5Genome [c5Step] ∧ WeightsIn 1 c5Genome ∧
      WeightsIn 1 (applyCWs 1 c5Genome [c5Step]) := by
  have hv : ValidCWs 1 c5Genome [c5Step] := by
    refine ⟨⟨List.Perm.refl _, List.Perm.refl _, ?_, ?_⟩, trivial⟩
    · intro i
      exact ⟨0, 3/4, by norm_num [weight_perturbation, c5Step]⟩
    · intro i
      exact ⟨0, 0, by norm_num [weight_perturbation, c5Step]⟩
  have hg : WeightsIn 1 c5Genome := by
    constructor
    · intro c hc
      rcases List.mem_singleton.mp hc with rfl
      norm_num [Connection.new]
    · intro c hc
      exact absurd hc (List.not_mem_nil c)
  exact ⟨hv, hg, C5_change_weights_capped.2 1 c5Genome [c5Step] hv hg⟩

end SetGenome
